import Mathlib

/-!
Verification of the WingmanEM CLI (src/wingmanem/app.py) against its
natural-language specification.  Strings are modelled as `List Char`,
Python dicts as ordered association lists with last-write-wins insertion,
and loosely typed JSON-ish values as an inductive `Value` type.
-/

namespace WingmanEM

/-- Strings of the modelled program: Python `str` as a list of characters. -/
abbrev Str := List Char

/-- Whitespace test used by Python `str.split()` / `str.strip()`. -/
def isWS (c : Char) : Bool := c.isWhitespace

/-- Python `s.strip()`: drop leading and trailing whitespace. -/
def pyStrip (s : Str) : Str :=
  (((s.dropWhile isWS).reverse).dropWhile isWS).reverse

/-- Python `s.lower()` (character-wise lowercasing). -/
def pyLower (s : Str) : Str := s.map Char.toLower

/-- Accumulator-based splitting of a string into whitespace-separated words,
the behaviour of Python `s.split()` with no separator argument. -/
def pyWordsAux (acc : Str) : Str → List Str
  | [] => if acc = [] then [] else [acc.reverse]
  | c :: s =>
    if isWS c then
      if acc = [] then pyWordsAux [] s else acc.reverse :: pyWordsAux [] s
    else pyWordsAux (c :: acc) s

/-- Python `s.split()`: maximal runs of non-whitespace characters. -/
def pyWords (s : Str) : List Str := pyWordsAux [] s

/-- Python `" ".join(ls)`. -/
def joinSpace : List Str → Str
  | [] => []
  | [l] => l
  | l :: l' :: ls => l ++ ' ' :: joinSpace (l' :: ls)

/-- Python `text.split("\n")` (keeps empty pieces; `"".split("\n") = [""]`). -/
def splitNl : Str → List Str
  | [] => [[]]
  | c :: s =>
    if c = '\n' then [] :: splitNl s
    else
      match splitNl s with
      | [] => [[c]]
      | p :: ps => (c :: p) :: ps

/-- Python `"\n".join(ls)`. -/
def joinNl : List Str → Str
  | [] => []
  | [l] => l
  | l :: l' :: ls => l ++ '\n' :: joinNl (l' :: ls)

/-! Basic lemmas about the string helpers. -/

theorem pyWordsAux_append_ws (c : Char) (hand : isWS c = true) :
    ∀ (x : Str) (acc : Str) (y : Str),
      pyWordsAux acc (x ++ c :: y) = pyWordsAux acc x ++ pyWords y := by
  intro x
  induction x with
  | nil =>
    intro acc y
    simp only [List.nil_append, pyWordsAux, hand, pyWords]
    by_cases h : acc = [] <;> simp [h, pyWordsAux]
  | cons d x ih =>
    intro acc y
    simp only [List.cons_append, pyWordsAux]
    by_cases hd : isWS d
    · by_cases h : acc = [] <;> simp [hd, h, ih]
    · simp [hd, ih]

theorem pyWords_append_ws (c : Char) (hand : isWS c = true) (x y : Str) :
    pyWords (x ++ c :: y) = pyWords x ++ pyWords y :=
  pyWordsAux_append_ws c hand x [] y

theorem pyWordsAux_all_nonws (w : Str) (hw : ∀ d ∈ w, isWS d = false) :
    ∀ acc : Str, pyWordsAux acc w =
      if acc = [] ∧ w = [] then [] else [acc.reverse ++ w] := by
  induction w with
  | nil =>
    intro acc
    by_cases h : acc = [] <;> simp [pyWordsAux, h]
  | cons d w ih =>
    intro acc
    have hd : isWS d = false := hw d (List.mem_cons_self d w)
    have hw' : ∀ e ∈ w, isWS e = false := fun e he => hw e (List.mem_cons_of_mem d he)
    simp only [pyWordsAux, hd, Bool.false_eq_true, if_false, ih hw']
    have : ¬(d :: acc = [] ∧ w = []) := by
      intro hcon; exact List.cons_ne_nil d acc hcon.1
    by_cases hwnil : w = [] <;> simp [hwnil]

theorem pyWords_all_nonws (w : Str) (hne : w ≠ []) (hw : ∀ d ∈ w, isWS d = false) :
    pyWords w = [w] := by
  simp [pyWords, pyWordsAux_all_nonws w hw [], hne]

theorem pyWords_join_flat (ls : List Str) :
    pyWords (joinSpace ls) = ls.flatMap pyWords := by
  induction ls with
  | nil => simp [joinSpace, pyWords, pyWordsAux]
  | cons l ls ih =>
    cases ls with
    | nil => simp [joinSpace]
    | cons l' ls' =>
      simp only [joinSpace, List.flatMap_cons]
      rw [pyWords_append_ws ' ' (by decide) l (joinSpace (l' :: ls'))]
      rw [ih]
      simp [List.flatMap_cons]

theorem pyWords_joinNl_flat (ls : List Str) :
    pyWords (joinNl ls) = ls.flatMap pyWords := by
  induction ls with
  | nil => simp [joinNl, pyWords, pyWordsAux]
  | cons l ls ih =>
    cases ls with
    | nil => simp [joinNl]
    | cons l' ls' =>
      simp only [joinNl, List.flatMap_cons]
      rw [pyWords_append_ws '\n' (by decide) l (joinNl (l' :: ls'))]
      rw [ih]
      simp [List.flatMap_cons]

theorem splitNl_ne_nil (s : Str) : splitNl s ≠ [] := by
  induction s with
  | nil => simp [splitNl]
  | cons c s ih =>
    simp only [splitNl]
    by_cases h : c = '\n'
    · simp [h]
    · simp only [h, if_false]
      cases hs : splitNl s with
      | nil => simp
      | cons p ps => simp

theorem joinNl_splitNl (s : Str) : joinNl (splitNl s) = s := by
  induction s with
  | nil => simp [splitNl, joinNl]
  | cons c s ih =>
    simp only [splitNl]
    by_cases h : c = '\n'
    · subst h
      simp only [if_pos rfl]
      cases hs : splitNl s with
      | nil => exact absurd hs (splitNl_ne_nil s)
      | cons p ps =>
        rw [hs] at ih
        cases ps with
        | nil => simp [joinNl, ← ih]
        | cons q qs => simp [joinNl, ← ih]
    · simp only [h, if_false]
      cases hs : splitNl s with
      | nil => exact absurd hs (splitNl_ne_nil s)
      | cons p ps =>
        rw [hs] at ih
        cases ps with
        | nil => simp [joinNl, ← ih]
        | cons q qs => simp only [joinNl] at ih ⊢; simp [← ih]

theorem pyWords_flatMap_splitNl (s : Str) :
    (splitNl s).flatMap pyWords = pyWords s := by
  conv_rhs => rw [← joinNl_splitNl s]
  rw [pyWords_joinNl_flat]

theorem pyWordsAux_sound (s : Str) :
    ∀ acc : Str, (∀ c ∈ acc, isWS c = false) →
      ∀ w ∈ pyWordsAux acc s, w ≠ [] ∧ ∀ c ∈ w, isWS c = false ∧ (c ∈ s ∨ c ∈ acc) := by
  induction s with
  | nil =>
    intro acc hacc w hw
    simp only [pyWordsAux] at hw
    by_cases h : acc = []
    · simp [h] at hw
    · simp only [h, if_false, List.mem_singleton] at hw
      subst hw
      refine ⟨by simpa using h, ?_⟩
      intro c hc
      rw [List.mem_reverse] at hc
      exact ⟨(hacc c hc), Or.inr hc⟩
  | cons d s ih =>
    intro acc hacc w hw
    simp only [pyWordsAux] at hw
    by_cases hd : isWS d
    · simp only [hd, if_true] at hw
      by_cases h : acc = []
      · simp only [h, if_pos rfl] at hw
        obtain ⟨hne, hall⟩ := ih [] (by simp) w hw
        exact ⟨hne, fun c hc => ⟨(hall c hc).1, by
          rcases (hall c hc).2 with h1 | h1
          · exact Or.inl (List.mem_cons_of_mem d h1)
          · simp at h1⟩⟩
      · simp only [h, if_false, List.mem_cons] at hw
        rcases hw with hw | hw
        · subst hw
          refine ⟨by simpa using h, ?_⟩
          intro c hc
          rw [List.mem_reverse] at hc
          exact ⟨hacc c hc, Or.inr hc⟩
        · obtain ⟨hne, hall⟩ := ih [] (by simp) w hw
          exact ⟨hne, fun c hc => ⟨(hall c hc).1, by
            rcases (hall c hc).2 with h1 | h1
            · exact Or.inl (List.mem_cons_of_mem d h1)
            · simp at h1⟩⟩
    · simp only [hd, if_false] at hw
      have hacc' : ∀ c ∈ d :: acc, isWS c = false := by
        intro c hc
        rcases List.mem_cons.mp hc with hc | hc
        · subst hc; simpa using hd
        · exact hacc c hc
      obtain ⟨hne, hall⟩ := ih (d :: acc) hacc' w hw
      refine ⟨hne, fun c hc => ⟨(hall c hc).1, ?_⟩⟩
      rcases (hall c hc).2 with h1 | h1
      · exact Or.inl (List.mem_cons_of_mem d h1)
      · rcases List.mem_cons.mp h1 with h2 | h2
        · exact Or.inl (h2 ▸ List.mem_cons_self d s)
        · exact Or.inr h2

theorem pyWords_sound (s : Str) :
    ∀ w ∈ pyWords s, w ≠ [] ∧ ∀ c ∈ w, isWS c = false ∧ c ∈ s := by
  intro w hw
  obtain ⟨hne, hall⟩ := pyWordsAux_sound s [] (by simp) w hw
  exact ⟨hne, fun c hc => ⟨(hall c hc).1, by
    rcases (hall c hc).2 with h | h
    · exact h
    · simp at h⟩⟩

theorem mem_splitNl_sub (s : Str) :
    ∀ p ∈ splitNl s, ∀ c ∈ p, c ∈ s := by
  induction s with
  | nil => intro p hp c hc; simp [splitNl] at hp; subst hp; simp at hc
  | cons d s ih =>
    intro p hp c hc
    simp only [splitNl] at hp
    by_cases h : d = '\n'
    · rw [if_pos h] at hp
      rcases List.mem_cons.mp hp with hp1 | hp1
      · subst hp1; simp at hc
      · exact List.mem_cons_of_mem d (ih p hp1 c hc)
    · simp only [h, if_false] at hp
      cases hs : splitNl s with
      | nil => exact absurd hs (splitNl_ne_nil s)
      | cons q qs =>
        rw [hs] at hp
        rcases List.mem_cons.mp hp with hp | hp
        · subst hp
          rcases List.mem_cons.mp hc with hc | hc
          · exact hc ▸ List.mem_cons_self d s
          · exact List.mem_cons_of_mem d (ih q (hs ▸ List.mem_cons_self q qs) c hc)
        · exact List.mem_cons_of_mem d (ih p (hs ▸ List.mem_cons_of_mem q hp) c hc)

theorem pyStrip_eq_nil_iff (s : Str) : pyStrip s = [] ↔ ∀ c ∈ s, isWS c = true := by
  unfold pyStrip
  rw [List.reverse_eq_nil_iff, List.dropWhile_eq_nil_iff]
  constructor
  · intro h c hc
    have hdrop : ∀ c ∈ s.dropWhile isWS, isWS c = true := by
      intro d hd
      exact h d (List.mem_reverse.mpr hd)
    conv at hc => rw [← List.takeWhile_append_dropWhile (p := isWS) (l := s)]
    rcases List.mem_append.mp hc with h1 | h1
    · exact List.mem_takeWhile_imp h1
    · exact hdrop c h1
  · intro h c hc
    exact h c ((List.dropWhile_sublist (p := isWS) (l := s)).subset (List.mem_reverse.mp hc))

theorem pyStrip_nonws (s : Str) (h : ∀ c ∈ s, isWS c = false) : pyStrip s = s := by
  have h1 : s.dropWhile isWS = s := by
    cases s with
    | nil => simp
    | cons c s => rw [List.dropWhile_cons_of_neg (by simp [h c (List.mem_cons_self c s)])]
  unfold pyStrip
  rw [h1]
  have h2 : s.reverse.dropWhile isWS = s.reverse := by
    cases hs : s.reverse with
    | nil => simp
    | cons c t =>
      rw [List.dropWhile_cons_of_neg ?_]
      have : c ∈ s.reverse := hs ▸ List.mem_cons_self c t
      simp [h c (List.mem_reverse.mp this)]
  rw [h2, List.reverse_reverse]

/-! The text wrapper `_wrap_text` (app.py lines 84-104).  Widths are `Int`
because the box renderer calls the wrapper with `width - 4`, which in Python
can go negative; `pySliceTo` models Python slicing `s[:k]` including the
negative-index case. -/

/-- Python `s[:k]` for an arbitrary integer bound `k`. -/
def pySliceTo (s : Str) (k : Int) : Str :=
  if k < 0 then s.take ((s.length + k).toNat) else s.take k.toNat

/-- State of the wrapping loop: emitted lines, the words of the line being
built, and the running total of the word lengths (`current_len`). -/
structure WrapState where
  lines : List Str
  current : List Str
  currentLen : Nat
deriving DecidableEq

/-- One step of the word loop in `_wrap_text`. -/
def wrapStep (width : Int) (st : WrapState) (w : Str) : WrapState :=
  if (st.currentLen : Int) + st.current.length + w.length ≤ width then
    { st with current := st.current ++ [w], currentLen := st.currentLen + w.length }
  else
    let lines := if st.current = [] then st.lines else st.lines ++ [joinSpace st.current]
    if (w.length : Int) ≤ width then
      { lines := lines, current := [w], currentLen := w.length }
    else
      { lines := lines, current := [pySliceTo w width],
        currentLen := (pySliceTo w width).length }

/-- Flush the pending line at the end of a paragraph (`if current: lines.append`). -/
def wrapFlush (st : WrapState) : List Str :=
  if st.current = [] then st.lines else st.lines ++ [joinSpace st.current]

/-- The body of `_wrap_text`: per paragraph, split into words, run the word
loop starting from the lines accumulated so far, and flush. -/
def wrapText (text : Str) (width : Int) : List Str :=
  if pyStrip text = [] then [[]]
  else
    (splitNl text).foldl
      (fun lines p =>
        wrapFlush ((pyWords p).foldl (wrapStep width) ⟨lines, [], 0⟩)) []

/-- Wrapping of a single paragraph's word list starting from no lines. -/
def wrapPara (width : Int) (ws : List Str) : List Str :=
  wrapFlush (ws.foldl (wrapStep width) ⟨[], [], 0⟩)

theorem wrapStep_lines_extend (width : Int) (L : List Str) (st : WrapState) (w : Str) :
    wrapStep width ⟨L ++ st.lines, st.current, st.currentLen⟩ w =
      ⟨L ++ (wrapStep width st w).lines, (wrapStep width st w).current,
        (wrapStep width st w).currentLen⟩ := by
  unfold wrapStep
  split_ifs <;> simp

theorem wrapFold_lines_extend (width : Int) (ws : List Str) :
    ∀ (L : List Str) (st : WrapState),
      ws.foldl (wrapStep width) ⟨L ++ st.lines, st.current, st.currentLen⟩ =
        ⟨L ++ (ws.foldl (wrapStep width) st).lines,
          (ws.foldl (wrapStep width) st).current,
          (ws.foldl (wrapStep width) st).currentLen⟩ := by
  induction ws with
  | nil => intro L st; rfl
  | cons w ws ih =>
    intro L st
    simp only [List.foldl_cons]
    rw [wrapStep_lines_extend, ih]

theorem wrapFlush_lines_extend (L : List Str) (st : WrapState) :
    wrapFlush ⟨L ++ st.lines, st.current, st.currentLen⟩ = L ++ wrapFlush st := by
  unfold wrapFlush
  by_cases h : st.current = [] <;> simp [h]

theorem wrapText_eq_flatMap (text : Str) (width : Int) (h : pyStrip text ≠ []) :
    wrapText text width = (splitNl text).flatMap (fun p => wrapPara width (pyWords p)) := by
  unfold wrapText
  rw [if_neg h]
  have key : ∀ (ps : List Str) (L : List Str),
      ps.foldl (fun lines p =>
          wrapFlush ((pyWords p).foldl (wrapStep width) ⟨lines, [], 0⟩)) L =
        L ++ ps.flatMap (fun p => wrapPara width (pyWords p)) := by
    intro ps
    induction ps with
    | nil => intro L; simp
    | cons p ps ih =>
      intro L
      simp only [List.foldl_cons, List.flatMap_cons]
      have h1 : (⟨L, [], 0⟩ : WrapState) = ⟨L ++ [], ([] : List Str), 0⟩ := by simp
      rw [h1]
      rw [show (⟨L ++ [], ([] : List Str), 0⟩ : WrapState) =
          ⟨L ++ (⟨[], [], 0⟩ : WrapState).lines, (⟨[], [], 0⟩ : WrapState).current,
            (⟨[], [], 0⟩ : WrapState).currentLen⟩ from rfl]
      rw [wrapFold_lines_extend, wrapFlush_lines_extend, ih]
      simp [wrapPara]
  rw [key]
  simp

theorem joinSpace_length (ls : List Str) (h : ls ≠ []) :
    (joinSpace ls).length + 1 = (ls.map List.length).sum + ls.length := by
  induction ls with
  | nil => simp at h
  | cons l ls ih =>
    cases ls with
    | nil => simp [joinSpace]
    | cons l' ls' =>
      have := ih (by simp)
      simp only [joinSpace, List.length_append, List.length_cons, List.map_cons,
        List.sum_cons] at this ⊢
      omega

/-- Invariant of the wrapping loop: emitted lines fit in `width`, `currentLen`
is the total word length of `current`, and the pending line would fit. -/
def WrapInv (width : Int) (st : WrapState) : Prop :=
  (∀ l ∈ st.lines, (l.length : Int) ≤ width) ∧
  st.currentLen = (st.current.map List.length).sum ∧
  (st.current ≠ [] → (st.currentLen : Int) + st.current.length ≤ width + 1)

theorem pySliceTo_length_le (w : Str) (width : Int) (h0 : 0 ≤ width) :
    ((pySliceTo w width).length : Int) ≤ width := by
  unfold pySliceTo
  rw [if_neg (by omega)]
  simp only [List.length_take]
  have h1 : (width.toNat : Int) = width := Int.toNat_of_nonneg h0
  have h2 : min width.toNat w.length ≤ width.toNat := Nat.min_le_left _ _
  omega

theorem wrapFlush_len (width : Int) (st : WrapState) (h : WrapInv width st) :
    ∀ l ∈ wrapFlush st, (l.length : Int) ≤ width := by
  obtain ⟨h1, h2, h3⟩ := h
  intro l hl
  unfold wrapFlush at hl
  by_cases hc : st.current = []
  · rw [if_pos hc] at hl; exact h1 l hl
  · rw [if_neg hc] at hl
    rcases List.mem_append.mp hl with hm | hm
    · exact h1 l hm
    · rw [List.mem_singleton] at hm
      subst hm
      have h4 := joinSpace_length st.current hc
      have h5 := h3 hc
      rw [h2] at h5
      have h6 : (1 : Int) ≤ st.current.length := by
        have := List.length_pos.mpr hc; omega
      omega

theorem wrapStep_inv (width : Int) (h0 : 0 ≤ width) (st : WrapState) (w : Str)
    (h : WrapInv width st) : WrapInv width (wrapStep width st w) := by
  obtain ⟨h1, h2, h3⟩ := h
  unfold wrapStep
  by_cases hc1 : (st.currentLen : Int) + st.current.length + w.length ≤ width
  · rw [if_pos hc1]
    refine ⟨h1, by simp [h2], fun _ => ?_⟩
    simp only [List.length_append, List.length_cons, List.length_nil]
    push_cast
    omega
  · rw [if_neg hc1]
    have hlines : ∀ l ∈ (if st.current = [] then st.lines
        else st.lines ++ [joinSpace st.current]), (l.length : Int) ≤ width :=
      wrapFlush_len width st ⟨h1, h2, h3⟩
    by_cases hc2 : (w.length : Int) ≤ width
    · rw [if_pos hc2]
      exact ⟨hlines, by simp, fun _ => by simp; omega⟩
    · rw [if_neg hc2]
      refine ⟨hlines, by simp, fun _ => ?_⟩
      have := pySliceTo_length_le w width h0
      simp only [List.length_cons, List.length_nil]
      push_cast
      omega

theorem wrapFold_inv (width : Int) (h0 : 0 ≤ width) (ws : List Str) :
    ∀ st : WrapState, WrapInv width st →
      WrapInv width (ws.foldl (wrapStep width) st) := by
  induction ws with
  | nil => intro st h; exact h
  | cons w ws ih =>
    intro st h
    exact ih _ (wrapStep_inv width h0 st w h)

theorem wrapPara_len (width : Int) (h0 : 0 ≤ width) (ws : List Str) :
    ∀ l ∈ wrapPara width ws, (l.length : Int) ≤ width := by
  unfold wrapPara
  exact wrapFlush_len width _
    (wrapFold_inv width h0 ws ⟨[], [], 0⟩ ⟨by simp, by simp, by simp⟩)

theorem wrapText_len (text : Str) (width : Int) (h0 : 0 ≤ width) :
    ∀ l ∈ wrapText text width, (l.length : Int) ≤ width := by
  intro l hl
  by_cases hb : pyStrip text = []
  · unfold wrapText at hl
    rw [if_pos hb] at hl
    simp at hl
    subst hl
    simpa using h0
  · rw [wrapText_eq_flatMap text width hb] at hl
    rw [List.mem_flatMap] at hl
    obtain ⟨p, _, hlp⟩ := hl
    exact wrapPara_len width h0 (pyWords p) l hlp

theorem wrapStep_current_ne (width : Int) (st : WrapState) (w : Str) :
    (wrapStep width st w).current ≠ [] := by
  unfold wrapStep
  split_ifs <;> simp

theorem wrapFold_current_ne (width : Int) (ws : List Str) (hne : ws ≠ []) :
    ∀ st : WrapState, (ws.foldl (wrapStep width) st).current ≠ [] := by
  induction ws with
  | nil => simp at hne
  | cons w ws ih =>
    intro st
    simp only [List.foldl_cons]
    by_cases h : ws = []
    · subst h
      simpa using wrapStep_current_ne width st w
    · exact ih h _

theorem wrapPara_ne_nil (width : Int) (ws : List Str) (hne : ws ≠ []) :
    wrapPara width ws ≠ [] := by
  unfold wrapPara wrapFlush
  rw [if_neg (wrapFold_current_ne width ws hne _)]
  simp

theorem pyWordsAux_eq_nil (s : Str) :
    ∀ acc : Str, pyWordsAux acc s = [] → acc = [] ∧ ∀ c ∈ s, isWS c = true := by
  induction s with
  | nil =>
    intro acc h
    simp only [pyWordsAux] at h
    by_cases hacc : acc = []
    · exact ⟨hacc, by simp⟩
    · simp [hacc] at h
  | cons d s ih =>
    intro acc h
    simp only [pyWordsAux] at h
    by_cases hd : isWS d
    · simp only [hd, if_true] at h
      by_cases hacc : acc = []
      · simp only [hacc, if_pos rfl] at h
        obtain ⟨_, hall⟩ := ih [] h
        refine ⟨hacc, fun c hc => ?_⟩
        rcases List.mem_cons.mp hc with hc | hc
        · subst hc; exact hd
        · exact hall c hc
      · simp [hacc] at h
    · simp only [hd, Bool.false_eq_true, if_false] at h
      obtain ⟨hcon, _⟩ := ih (d :: acc) h
      exact absurd hcon (List.cons_ne_nil d acc)

theorem pyWords_ne_nil (s : Str) (c : Char) (hc : c ∈ s) (hws : isWS c = false) :
    pyWords s ≠ [] := by
  intro h
  obtain ⟨_, hall⟩ := pyWordsAux_eq_nil s [] h
  rw [hall c hc] at hws
  simp at hws

theorem mem_joinNl (ls : List Str) (c : Char) (hc : c ∈ joinNl ls) :
    c = '\n' ∨ ∃ p ∈ ls, c ∈ p := by
  induction ls with
  | nil => simp [joinNl] at hc
  | cons l ls ih =>
    cases ls with
    | nil =>
      simp only [joinNl] at hc
      exact Or.inr ⟨l, List.mem_singleton_self l, hc⟩
    | cons l' ls' =>
      simp only [joinNl] at hc
      rcases List.mem_append.mp hc with h1 | h1
      · exact Or.inr ⟨l, List.mem_cons_self _ _, h1⟩
      · rcases List.mem_cons.mp h1 with h2 | h2
        · exact Or.inl h2
        · rcases ih h2 with h3 | ⟨p, hp, hcp⟩
          · exact Or.inl h3
          · exact Or.inr ⟨p, List.mem_cons_of_mem l hp, hcp⟩

theorem wrapText_ne_nil (text : Str) (width : Int) : wrapText text width ≠ [] := by
  by_cases hb : pyStrip text = []
  · unfold wrapText; rw [if_pos hb]; simp
  · rw [wrapText_eq_flatMap text width hb]
    have hex : ∃ c ∈ text, isWS c = false := by
      by_contra hcon
      push_neg at hcon
      exact hb (pyStrip_eq_nil_iff text |>.mpr (fun c hc => by
        have := hcon c hc
        revert this
        cases isWS c <;> simp))
    obtain ⟨c, hc, hws⟩ := hex
    have hc2 : c ∈ joinNl (splitNl text) := by rw [joinNl_splitNl]; exact hc
    rcases mem_joinNl _ c hc2 with h1 | ⟨p, hp, hcp⟩
    · subst h1; simp [isWS] at hws
    · have hpw : pyWords p ≠ [] := pyWords_ne_nil p c hcp hws
      intro hflat
      have : wrapPara width (pyWords p) ≠ [] := wrapPara_ne_nil width _ hpw
      have hmem : ∀ l ∈ wrapPara width (pyWords p), l ∈
          (splitNl text).flatMap fun q => wrapPara width (pyWords q) := by
        intro l hl
        exact List.mem_flatMap.mpr ⟨p, hp, hl⟩
      cases hlp : wrapPara width (pyWords p) with
      | nil => exact this hlp
      | cons x xs =>
        have := hmem x (hlp ▸ List.mem_cons_self x xs)
        rw [hflat] at this
        simp at this

theorem flatMap_pyWords_self (ls : List Str)
    (h : ∀ u ∈ ls, u ≠ [] ∧ ∀ c ∈ u, isWS c = false) :
    ls.flatMap pyWords = ls := by
  induction ls with
  | nil => simp
  | cons u ls ih =>
    have hu := h u (List.mem_cons_self u ls)
    rw [List.flatMap_cons, pyWords_all_nonws u hu.1 hu.2,
      ih (fun v hv => h v (List.mem_cons_of_mem u hv))]
    simp

theorem wrapFold_words (width : Int) (ws : List Str)
    (hws : ∀ w ∈ ws, w ≠ [] ∧ (∀ c ∈ w, isWS c = false) ∧ (w.length : Int) ≤ width) :
    ∀ st : WrapState, (∀ u ∈ st.current, u ≠ [] ∧ ∀ c ∈ u, isWS c = false) →
      (wrapFlush (ws.foldl (wrapStep width) st)).flatMap pyWords =
        st.lines.flatMap pyWords ++ st.current ++ ws := by
  induction ws with
  | nil =>
    intro st hcur
    simp only [List.foldl_nil, List.append_nil]
    unfold wrapFlush
    by_cases hc : st.current = []
    · simp [hc]
    · rw [if_neg hc, List.flatMap_append, List.flatMap_singleton, pyWords_join_flat,
        flatMap_pyWords_self st.current hcur]
  | cons w ws ih =>
    intro st hcur
    obtain ⟨hwne, hwns, hwlen⟩ := hws w (List.mem_cons_self w ws)
    have hws' : ∀ v ∈ ws, v ≠ [] ∧ (∀ c ∈ v, isWS c = false) ∧ (v.length : Int) ≤ width :=
      fun v hv => hws v (List.mem_cons_of_mem w hv)
    simp only [List.foldl_cons]
    have hstep : (wrapStep width st w).lines.flatMap pyWords ++ (wrapStep width st w).current =
        st.lines.flatMap pyWords ++ st.current ++ [w] := by
      unfold wrapStep
      by_cases hc1 : (st.currentLen : Int) + st.current.length + w.length ≤ width
      · simp [hc1]
      · rw [if_neg hc1, if_pos hwlen]
        by_cases hc : st.current = []
        · simp [hc]
        · rw [if_neg hc]
          simp only
          rw [List.flatMap_append, List.flatMap_singleton, pyWords_join_flat,
            flatMap_pyWords_self st.current hcur]
    have hcur' : ∀ u ∈ (wrapStep width st w).current, u ≠ [] ∧ ∀ c ∈ u, isWS c = false := by
      unfold wrapStep
      by_cases hc1 : (st.currentLen : Int) + st.current.length + w.length ≤ width
      · rw [if_pos hc1]
        intro u hu
        simp only at hu
        rcases List.mem_append.mp hu with h1 | h1
        · exact hcur u h1
        · rw [List.mem_singleton] at h1; subst h1; exact ⟨hwne, hwns⟩
      · rw [if_neg hc1, if_pos hwlen]
        intro u hu
        simp only [List.mem_singleton] at hu
        subst hu
        exact ⟨hwne, hwns⟩
    rw [ih (fun v hv => hws' v hv) _ hcur', hstep]
    simp

/-- C4.  For all text and all width ≥ 1, `_wrap_text` returns at least one
line; whitespace-only input yields exactly one empty line; every line fits in
`width`; a single overlong word is hard-truncated to `width`. -/
theorem wrapText_shape (text : Str) (width : Int) (h : 1 ≤ width) :
    wrapText text width ≠ [] ∧
    (∀ l ∈ wrapText text width, (l.length : Int) ≤ width) ∧
    ((∀ c ∈ text, isWS c = true) → wrapText text width = [[]]) ∧
    (text ≠ [] → (∀ c ∈ text, isWS c = false) → width < (text.length : Int) →
      wrapText text width = [pySliceTo text width]) := by
  refine ⟨wrapText_ne_nil text width, wrapText_len text width (by omega), ?_, ?_⟩
  · intro hws
    unfold wrapText
    rw [if_pos ((pyStrip_eq_nil_iff text).mpr hws)]
  · intro hne hnws hlen
    have hstrip : pyStrip text = text := pyStrip_nonws text hnws
    have hsplit : splitNl text = [text] := by
      clear hlen hstrip
      induction text with
      | nil => simp at hne
      | cons c s ih =>
        have hcnw : isWS c = false := hnws c (List.mem_cons_self c s)
        have hcnl : ¬ (c = '\n') := by
          intro hcon; subst hcon; simp [isWS] at hcnw
        simp only [splitNl, hcnl, if_false]
        cases s with
        | nil => simp [splitNl]
        | cons d s' =>
          rw [ih (by simp) (fun e he => hnws e (List.mem_cons_of_mem c he))]
    rw [wrapText_eq_flatMap text width (by rw [hstrip]; exact hne), hsplit]
    rw [List.flatMap_singleton, pyWords_all_nonws text hne hnws]
    unfold wrapPara
    simp only [List.foldl_cons, List.foldl_nil]
    unfold wrapStep
    rw [if_neg (by push_cast; omega), if_pos rfl, if_neg (by omega)]
    unfold wrapFlush
    simp [joinSpace]

/-- C4 witness: the theorem applied at the overlong word "abcdef" with width 3. -/
theorem wrapText_shape_witness : wrapText ("abcdef".toList) 3 = [pySliceTo ("abcdef".toList) 3] :=
  (wrapText_shape ("abcdef".toList) 3 (by decide)).2.2.2 (by decide) (by decide) (by decide)

theorem pyWords_eq_nil_of_ws (s : Str) (h : ∀ c ∈ s, isWS c = true) : pyWords s = [] := by
  induction s with
  | nil => rfl
  | cons c s ih =>
    have hc := h c (List.mem_cons_self c s)
    show pyWordsAux [] (c :: s) = []
    simp only [pyWordsAux, hc, if_pos rfl]
    exact ih (fun d hd => h d (List.mem_cons_of_mem c hd))

/-- C5 counterexample: with width 3 the single word "abcdef" is truncated to
"abc", so re-splitting the joined output does not reproduce the input words. -/
theorem wrapText_roundtrip_cex :
    ¬ (pyWords (joinSpace (wrapText ("abcdef".toList) 3)) = pyWords ("abcdef".toList)) := by
  decide

/-- C5 (amended): when every word of the input fits in the width (so the
hard-truncation branch is never taken), joining the produced lines with single
spaces and re-splitting reproduces exactly the words of the input, in order. -/
theorem wrapText_roundtrip (text : Str) (width : Int) (h1 : 1 ≤ width)
    (h2 : ∀ w ∈ pyWords text, (w.length : Int) ≤ width) :
    pyWords (joinSpace (wrapText text width)) = pyWords text := by
  rw [pyWords_join_flat]
  by_cases hb : pyStrip text = []
  · unfold wrapText
    rw [if_pos hb]
    rw [pyWords_eq_nil_of_ws text ((pyStrip_eq_nil_iff text).mp hb)]
    simp [pyWords, pyWordsAux]
  · rw [wrapText_eq_flatMap text width hb, List.flatMap_assoc]
    rw [← pyWords_flatMap_splitNl text]
    apply List.flatMap_congr
    intro p hp
    have hcond : ∀ w ∈ pyWords p, w ≠ [] ∧ (∀ c ∈ w, isWS c = false) ∧
        (w.length : Int) ≤ width := by
      intro w hw
      obtain ⟨hne, hall⟩ := pyWords_sound p w hw
      refine ⟨hne, fun c hc => (hall c hc).1, ?_⟩
      have : w ∈ (splitNl text).flatMap pyWords := List.mem_flatMap.mpr ⟨p, hp, hw⟩
      rw [pyWords_flatMap_splitNl] at this
      exact h2 w this
    have := wrapFold_words width (pyWords p) hcond ⟨[], [], 0⟩ (by simp)
    unfold wrapPara
    rw [this]
    simp

/-- C5 witness: the amended round-trip at "ab cd ef" with width 5, where
every word fits. -/
theorem wrapText_roundtrip_witness :
    pyWords (joinSpace (wrapText ("ab cd ef".toList) 5)) = pyWords ("ab cd ef".toList) :=
  wrapText_roundtrip ("ab cd ef".toList) 5 (by decide) (by decide)

/-! Character soundness of wrapped lines: every character of an output line is
either a space inserted by the join or a non-whitespace character of the input. -/

theorem mem_joinSpace (ls : List Str) (c : Char) (hc : c ∈ joinSpace ls) :
    c = ' ' ∨ ∃ u ∈ ls, c ∈ u := by
  induction ls with
  | nil => simp [joinSpace] at hc
  | cons l ls ih =>
    cases ls with
    | nil =>
      simp only [joinSpace] at hc
      exact Or.inr ⟨l, List.mem_singleton_self l, hc⟩
    | cons l' ls' =>
      simp only [joinSpace] at hc
      rcases List.mem_append.mp hc with h1 | h1
      · exact Or.inr ⟨l, List.mem_cons_self _ _, h1⟩
      · rcases List.mem_cons.mp h1 with h2 | h2
        · exact Or.inl h2
        · rcases ih h2 with h3 | ⟨u, hu, hcu⟩
          · exact Or.inl h3
          · exact Or.inr ⟨u, List.mem_cons_of_mem l hu, hcu⟩

theorem pySliceTo_subset (w : Str) (k : Int) : pySliceTo w k ⊆ w := by
  unfold pySliceTo
  split_ifs <;> exact List.take_subset _ w

theorem wrapFold_chars (width : Int) (P : Char → Prop) (ws : List Str)
    (hws : ∀ w ∈ ws, ∀ c ∈ w, P c) :
    ∀ st : WrapState, (∀ l ∈ st.lines, ∀ c ∈ l, c = ' ' ∨ P c) →
      (∀ u ∈ st.current, ∀ c ∈ u, P c) →
      ∀ l ∈ wrapFlush (ws.foldl (wrapStep width) st), ∀ c ∈ l, c = ' ' ∨ P c := by
  induction ws with
  | nil =>
    intro st hlines hcur l hl c hc
    simp only [List.foldl_nil] at hl
    unfold wrapFlush at hl
    by_cases h : st.current = []
    · rw [if_pos h] at hl; exact hlines l hl c hc
    · rw [if_neg h] at hl
      rcases List.mem_append.mp hl with h1 | h1
      · exact hlines l h1 c hc
      · rw [List.mem_singleton] at h1
        subst h1
        rcases mem_joinSpace st.current c hc with h2 | ⟨u, hu, hcu⟩
        · exact Or.inl h2
        · exact Or.inr (hcur u hu c hcu)
  | cons w ws ih =>
    intro st hlines hcur
    have hw : ∀ c ∈ w, P c := hws w (List.mem_cons_self w ws)
    have hws' : ∀ v ∈ ws, ∀ c ∈ v, P c := fun v hv => hws v (List.mem_cons_of_mem w hv)
    simp only [List.foldl_cons]
    have hflines : ∀ l ∈ (if st.current = [] then st.lines
        else st.lines ++ [joinSpace st.current]), ∀ c ∈ l, c = ' ' ∨ P c := by
      intro l hl c hc
      by_cases h : st.current = []
      · rw [if_pos h] at hl; exact hlines l hl c hc
      · rw [if_neg h] at hl
        rcases List.mem_append.mp hl with h1 | h1
        · exact hlines l h1 c hc
        · rw [List.mem_singleton] at h1
          subst h1
          rcases mem_joinSpace st.current c hc with h2 | ⟨u, hu, hcu⟩
          · exact Or.inl h2
          · exact Or.inr (hcur u hu c hcu)
    have hlines' : ∀ l ∈ (wrapStep width st w).lines, ∀ c ∈ l, c = ' ' ∨ P c := by
      unfold wrapStep
      by_cases h1 : (st.currentLen : Int) + st.current.length + w.length ≤ width
      · rw [if_pos h1]; exact hlines
      · rw [if_neg h1]
        by_cases h2 : (w.length : Int) ≤ width
        · rw [if_pos h2]; exact hflines
        · rw [if_neg h2]; exact hflines
    have hcur' : ∀ u ∈ (wrapStep width st w).current, ∀ c ∈ u, P c := by
      unfold wrapStep
      by_cases h1 : (st.currentLen : Int) + st.current.length + w.length ≤ width
      · rw [if_pos h1]
        intro u hu c hc
        rcases List.mem_append.mp hu with hm | hm
        · exact hcur u hm c hc
        · rw [List.mem_singleton] at hm; subst hm; exact hw c hc
      · rw [if_neg h1]
        by_cases h2 : (w.length : Int) ≤ width
        · rw [if_pos h2]
          intro u hu c hc
          rw [List.mem_singleton] at hu; subst hu; exact hw c hc
        · rw [if_neg h2]
          intro u hu c hc
          rw [List.mem_singleton] at hu
          subst hu
          exact hw c (pySliceTo_subset w width hc)
    exact ih hws' (wrapStep width st w) hlines' hcur'

theorem wrapText_chars (text : Str) (width : Int) :
    ∀ l ∈ wrapText text width, ∀ c ∈ l, c = ' ' ∨ (isWS c = false ∧ c ∈ text) := by
  intro l hl c hc
  by_cases hb : pyStrip text = []
  · unfold wrapText at hl
    rw [if_pos hb] at hl
    simp at hl
    subst hl
    simp at hc
  · rw [wrapText_eq_flatMap text width hb] at hl
    obtain ⟨p, hp, hlp⟩ := List.mem_flatMap.mp hl
    have hwords : ∀ w ∈ pyWords p, ∀ d ∈ w, isWS d = false ∧ d ∈ text := by
      intro w hw d hd
      obtain ⟨_, hall⟩ := pyWords_sound p w hw
      exact ⟨(hall d hd).1, mem_splitNl_sub text p hp d (hall d hd).2⟩
    exact wrapFold_chars width _ (pyWords p) hwords ⟨[], [], 0⟩ (by simp) (by simp) l hlp c hc

/-! The box renderer `_menu_box` (app.py lines 111-173) and the ANSI-aware
visible length of a rendered line. -/

def MENU_COLOR_BLACK : Str := ['\x1b', '[', '3', '0', 'm']

def MENU_COLOR_RED : Str := ['\x1b', '[', '3', '1', 'm']

def MENU_COLOR_DISABLED : Str := ['\x1b', '[', '2', ';', '3', '7', 'm']

def MENU_COLOR_RESET : Str := ['\x1b', '[', '0', 'm']

def MENU_BOLD : Str := ['\x1b', '[', '1', 'm']

/-- Python `s.ljust(w)`. -/
def pyLjust (s : Str) (w : Nat) : Str := s ++ List.replicate (w - s.length) ' '

/-- An entry of the `options` argument of `_menu_box`: a bare label, a
`(label, enabled)` pair, or a `(label, enabled, red)` triple. -/
inductive MenuOption where
  | plain (text : Str)
  | tup2 (text : Str) (enabled : Bool)
  | tup3 (text : Str) (enabled : Bool) (red : Bool)

/-- The option label, as unpacked by `_menu_box`. -/
def optText : MenuOption → Str
  | .plain t => t
  | .tup2 t _ => t
  | .tup3 t _ _ => t

/-- The enabled flag, as unpacked by `_menu_box` (default `True`). -/
def optEnabled : MenuOption → Bool
  | .plain _ => true
  | .tup2 _ e => e
  | .tup3 _ e _ => e

/-- The red flag, as unpacked by `_menu_box` (default `False`). -/
def optRed : MenuOption → Bool
  | .plain _ => false
  | .tup2 _ _ => false
  | .tup3 _ _ r => r

/-- An entry of the `middle` argument of `_menu_box`: a plain paragraph or a
`(bold_prefix, rest)` pair. -/
inductive MiddleEntry where
  | plain (text : Str)
  | pair (boldPart rest : Str)

/-- The raw text carried by a middle entry. -/
def middleText : MiddleEntry → Str
  | .plain t => t
  | .pair b r => b ++ r

/-- One rendered option line of the box. -/
def menuBoxOptionLine (width : Nat) (opt : MenuOption) : Str :=
  let content := pyLjust ((optText opt).take width) width
  let color := if optEnabled opt = false then MENU_COLOR_DISABLED
    else if optRed opt = true then MENU_COLOR_RED else MENU_COLOR_BLACK
  '║' :: (color ++ content ++ MENU_COLOR_RESET) ++ ['║']

/-- The first rendered line of a `(bold_prefix, rest)` middle entry, with the
bold prefix styled and padding computed from the visible character count. -/
def menuBoxPairFirstLine (width : Nat) (boldPart : Str) (line : Str) : Str :=
  let boldLen := boldPart.length
  let boldText := line.take boldLen
  let restText := (pySliceTo line ((width : Int) - 4)).drop boldLen
  let visible := 2 + boldText.length + restText.length
  let paddingNeeded : Int := (width : Int) - 2 - visible
  let content := ([' ', ' '] ++ MENU_BOLD ++ boldText ++ MENU_COLOR_RESET ++ restText)
    ++ List.replicate paddingNeeded.toNat ' ' ++ [' ', ' ']
  '║' :: content ++ ['║']

/-- A continuation line of a `(bold_prefix, rest)` middle entry. -/
def menuBoxPairContLine (width : Nat) (line : Str) : Str :=
  '║' :: ([' ', ' '] ++ pyLjust (pySliceTo line ((width : Int) - 4)) (width - 4) ++ [' ', ' ']) ++ ['║']

/-- The rendered lines contributed by one middle entry. -/
def menuBoxMiddleLines (width : Nat) : MiddleEntry → List Str
  | .pair boldPart rest =>
    match wrapText (boldPart ++ rest) ((width : Int) - 4) with
    | [] => []
    | line0 :: more =>
      menuBoxPairFirstLine width boldPart line0 :: more.map (menuBoxPairContLine width)
  | .plain t =>
    (wrapText t (width : Int)).map fun line =>
      '║' :: (MENU_BOLD ++ pyLjust (line.take width) width ++ MENU_COLOR_RESET) ++ ['║']

/-- The box menu builder `_menu_box`: borders, bold title, separator, styled
option lines, optional middle block placed on top or bottom. -/
def menuBox (title : Str) (options : List MenuOption) (width : Nat)
    (middle : List MiddleEntry) (middleBottom : Bool) : Str :=
  let border := '╔' :: List.replicate width '═' ++ ['╗']
  let sep := '╠' :: List.replicate width '═' ++ ['╣']
  let bottom := '╚' :: List.replicate width '═' ++ ['╝']
  let titleLine := '║' :: (MENU_BOLD ++ pyLjust (title.take width) width ++ MENU_COLOR_RESET) ++ ['║']
  let optLines := options.map (menuBoxOptionLine width)
  let middleLines := middle.flatMap (menuBoxMiddleLines width)
  if middleLines ≠ [] ∧ middleBottom = true then
    joinNl ([border, titleLine, sep] ++ optLines ++ [sep] ++ middleLines ++ [bottom])
  else
    joinNl ([border, titleLine, sep] ++ middleLines ++ optLines ++ [bottom])

/-- Scanner for ANSI removal: in escape mode (`true`) characters are dropped
up to and including the closing `m`; in text mode characters are kept and an
escape character switches to escape mode. -/
def stripAnsiAux : Bool → Str → Str
  | _, [] => []
  | true, c :: s => if c = 'm' then stripAnsiAux false s else stripAnsiAux true s
  | false, c :: s => if c = '\x1b' then stripAnsiAux true s else c :: stripAnsiAux false s

/-- Drop ANSI escape sequences: an escape character swallows everything up to
and including the next `m`. -/
def stripAnsi (s : Str) : Str := stripAnsiAux false s

/-- Visible length of a rendered line: character count after removing ANSI
style codes. -/
def visibleLen (s : Str) : Nat := (stripAnsi s).length

theorem stripAnsi_nil : stripAnsi [] = [] := rfl

theorem stripAnsi_cons_ne (c : Char) (s : Str) (h : ¬ c = '\x1b') :
    stripAnsi (c :: s) = c :: stripAnsi s := by
  unfold stripAnsi
  simp only [stripAnsiAux, h, if_false]

theorem stripAnsi_escfree_append (a : Str) (h : ∀ c ∈ a, ¬ c = '\x1b') (b : Str) :
    stripAnsi (a ++ b) = a ++ stripAnsi b := by
  induction a with
  | nil => simp
  | cons c a ih =>
    rw [List.cons_append, stripAnsi_cons_ne c _ (h c (List.mem_cons_self c a)),
      ih (fun d hd => h d (List.mem_cons_of_mem c hd))]
    rfl

theorem stripAnsi_escfree (a : Str) (h : ∀ c ∈ a, ¬ c = '\x1b') : stripAnsi a = a := by
  have := stripAnsi_escfree_append a h []
  simpa [stripAnsi_nil] using this

theorem stripAnsiAux_skip (body : Str) (hb : ∀ c ∈ body, ¬ c = 'm') (b : Str) :
    stripAnsiAux true (body ++ 'm' :: b) = stripAnsiAux false b := by
  induction body with
  | nil => simp [stripAnsiAux]
  | cons c body ih =>
    rw [List.cons_append]
    show stripAnsiAux true (c :: (body ++ 'm' :: b)) = stripAnsiAux false b
    simp only [stripAnsiAux, hb c (List.mem_cons_self c body), if_false]
    exact ih (fun d hd => hb d (List.mem_cons_of_mem c hd))

theorem stripAnsi_esc_code (body : Str) (hb : ∀ c ∈ body, ¬ c = 'm') (b : Str) :
    stripAnsi ('\x1b' :: (body ++ 'm' :: b)) = stripAnsi b := by
  unfold stripAnsi
  show stripAnsiAux false ('\x1b' :: (body ++ 'm' :: b)) = stripAnsiAux false b
  simp only [stripAnsiAux, if_pos rfl]
  exact stripAnsiAux_skip body hb b

/-- Each of the five concrete style codes is transparent to `stripAnsi`. -/
theorem stripAnsi_code (code : Str)
    (h : code = MENU_BOLD ∨ code = MENU_COLOR_RESET ∨ code = MENU_COLOR_BLACK ∨
      code = MENU_COLOR_RED ∨ code = MENU_COLOR_DISABLED) (b : Str) :
    stripAnsi (code ++ b) = stripAnsi b := by
  rcases h with h | h | h | h | h <;> subst h
  · exact stripAnsi_esc_code ['[', '1'] (by decide) b
  · exact stripAnsi_esc_code ['[', '0'] (by decide) b
  · exact stripAnsi_esc_code ['[', '3', '0'] (by decide) b
  · exact stripAnsi_esc_code ['[', '3', '1'] (by decide) b
  · exact stripAnsi_esc_code ['[', '2', ';', '3', '7'] (by decide) b

theorem pyLjust_length (s : Str) (w : Nat) (h : s.length ≤ w) :
    (pyLjust s w).length = w := by
  simp [pyLjust]
  omega

theorem mem_pyLjust (s : Str) (w : Nat) (c : Char) (hc : c ∈ pyLjust s w) :
    c ∈ s ∨ c = ' ' := by
  rcases List.mem_append.mp hc with h | h
  · exact Or.inl h
  · exact Or.inr (List.eq_of_mem_replicate h)

/-- A visible-width computation for the standard styled line shape used for
the title, the option rows, and plain middle rows. -/
theorem visibleLen_styled (code content : Str)
    (hcode : code = MENU_BOLD ∨ code = MENU_COLOR_RESET ∨ code = MENU_COLOR_BLACK ∨
      code = MENU_COLOR_RED ∨ code = MENU_COLOR_DISABLED)
    (hesc : ∀ c ∈ content, ¬ c = '\x1b') :
    visibleLen ('║' :: (code ++ content ++ MENU_COLOR_RESET) ++ ['║']) = content.length + 2 := by
  unfold visibleLen
  have e1 : (code ++ content ++ MENU_COLOR_RESET) ++ ['║'] =
      code ++ (content ++ (MENU_COLOR_RESET ++ ['║'])) := by
    simp [List.append_assoc]
  rw [List.cons_append, stripAnsi_cons_ne _ _ (by decide), e1, stripAnsi_code code hcode,
    stripAnsi_escfree_append content hesc,
    stripAnsi_code MENU_COLOR_RESET (Or.inr (Or.inl rfl)),
    stripAnsi_escfree ['║'] (by decide)]
  simp

/-- A rendered line is acceptable when it contains no newline and its visible
length is the interior width plus the two border characters. -/
def LineOk (width : Nat) (l : Str) : Prop :=
  (∀ c ∈ l, ¬ c = '\n') ∧ visibleLen l = width + 2

theorem mem_code_not_nl (code : Str)
    (h : code = MENU_BOLD ∨ code = MENU_COLOR_RESET ∨ code = MENU_COLOR_BLACK ∨
      code = MENU_COLOR_RED ∨ code = MENU_COLOR_DISABLED) :
    ∀ c ∈ code, ¬ c = '\n' := by
  rcases h with h | h | h | h | h <;> subst h <;> decide

theorem boxRule_ok (width : Nat) (c1 c2 : Char)
    (h1 : ¬ c1 = '\x1b' ∧ ¬ c1 = '\n') (h2 : ¬ c2 = '\x1b' ∧ ¬ c2 = '\n') :
    LineOk width (c1 :: List.replicate width '═' ++ [c2]) := by
  have hmem : ∀ c ∈ c1 :: List.replicate width '═' ++ [c2],
      c = c1 ∨ c = '═' ∨ c = c2 := by
    intro c hc
    rw [List.cons_append] at hc
    rcases List.mem_cons.mp hc with h | h
    · exact Or.inl h
    · rcases List.mem_append.mp h with h | h
      · exact Or.inr (Or.inl (List.eq_of_mem_replicate h))
      · exact Or.inr (Or.inr (List.mem_singleton.mp h))
  constructor
  · intro c hc
    rcases hmem c hc with h | h | h
    · exact h ▸ h1.2
    · subst h; decide
    · exact h ▸ h2.2
  · unfold visibleLen
    rw [stripAnsi_escfree _ (fun c hc => by
      rcases hmem c hc with h | h | h
      · exact h ▸ h1.1
      · subst h; decide
      · exact h ▸ h2.1)]
    simp

theorem styledLine_ok (width : Nat) (code t : Str)
    (hcode : code = MENU_BOLD ∨ code = MENU_COLOR_RESET ∨ code = MENU_COLOR_BLACK ∨
      code = MENU_COLOR_RED ∨ code = MENU_COLOR_DISABLED)
    (ht : ∀ c ∈ t, ¬ c = '\x1b' ∧ ¬ c = '\n') :
    LineOk width ('║' :: (code ++ pyLjust (t.take width) width ++ MENU_COLOR_RESET) ++ ['║']) := by
  have hcontent : ∀ c ∈ pyLjust (t.take width) width, ¬ c = '\x1b' ∧ ¬ c = '\n' := by
    intro c hc
    rcases mem_pyLjust _ _ c hc with h | h
    · exact ht c (List.take_subset width t h)
    · subst h; exact ⟨by decide, by decide⟩
  constructor
  · intro c hc
    rw [List.cons_append] at hc
    rcases List.mem_cons.mp hc with h | h
    · subst h; decide
    · rcases List.mem_append.mp h with h | h
      · rcases List.mem_append.mp h with h | h
        · rcases List.mem_append.mp h with h | h
          · exact mem_code_not_nl code hcode c h
          · exact (hcontent c h).2
        · exact mem_code_not_nl MENU_COLOR_RESET (Or.inr (Or.inl rfl)) c h
      · rw [List.mem_singleton] at h; subst h; decide
  · rw [visibleLen_styled code _ hcode (fun c hc => (hcontent c hc).1)]
    rw [pyLjust_length _ _ (by
      rw [List.length_take]
      exact Nat.min_le_left width t.length)]

theorem pySliceTo_of_le (s : Str) (k : Int) (h0 : 0 ≤ k) (h : (s.length : Int) ≤ k) :
    pySliceTo s k = s := by
  unfold pySliceTo
  rw [if_neg (by omega)]
  exact List.take_of_length_le (by omega)

theorem pairContLine_ok (width : Nat) (h4 : 4 ≤ width) (line : Str)
    (hlen : (line.length : Int) ≤ (width : Int) - 4)
    (hchars : ∀ c ∈ line, ¬ c = '\x1b' ∧ ¬ c = '\n') :
    LineOk width (menuBoxPairContLine width line) := by
  unfold menuBoxPairContLine
  have hsl : pySliceTo line ((width : Int) - 4) = line :=
    pySliceTo_of_le line _ (by omega) hlen
  rw [hsl]
  have hlenN : line.length ≤ width - 4 := by omega
  have hcontent : ∀ c ∈ pyLjust line (width - 4), ¬ c = '\x1b' ∧ ¬ c = '\n' := by
    intro c hc
    rcases mem_pyLjust _ _ c hc with h | h
    · exact hchars c h
    · subst h; exact ⟨by decide, by decide⟩
  constructor
  · intro c hc
    rw [List.cons_append] at hc
    rcases List.mem_cons.mp hc with h | h
    · subst h; decide
    · rcases List.mem_append.mp h with h | h
      · rcases List.mem_append.mp h with h | h
        · rcases List.mem_append.mp h with h | h
          · simp at h; subst h; decide
          · exact (hcontent c h).2
        · simp at h; subst h; decide
      · rw [List.mem_singleton] at h; subst h; decide
  · unfold visibleLen
    rw [List.cons_append, stripAnsi_cons_ne _ _ (by decide),
      stripAnsi_escfree _ (fun c hc => by
        rcases List.mem_append.mp hc with h | h
        · rcases List.mem_append.mp h with h | h
          · rcases List.mem_append.mp h with h | h
            · simp at h; subst h; decide
            · exact (hcontent c h).1
          · simp at h; subst h; decide
        · rw [List.mem_singleton] at h; subst h; decide)]
    simp only [List.length_cons, List.length_append, List.length_singleton, List.length_nil]
    rw [pyLjust_length _ _ hlenN]
    omega

theorem pairFirstLine_ok (width : Nat) (h4 : 4 ≤ width) (boldPart line : Str)
    (hlen : (line.length : Int) ≤ (width : Int) - 4)
    (hchars : ∀ c ∈ line, ¬ c = '\x1b' ∧ ¬ c = '\n') :
    LineOk width (menuBoxPairFirstLine width boldPart line) := by
  unfold menuBoxPairFirstLine
  have hsl : pySliceTo line ((width : Int) - 4) = line :=
    pySliceTo_of_le line _ (by omega) hlen
  rw [hsl]
  have hbt : ∀ c ∈ line.take boldPart.length, ¬ c = '\x1b' ∧ ¬ c = '\n' :=
    fun c hc => hchars c (List.take_subset _ line hc)
  have hrt : ∀ c ∈ line.drop boldPart.length, ¬ c = '\x1b' ∧ ¬ c = '\n' :=
    fun c hc => hchars c (List.drop_subset _ line hc)
  have hbtlen : (line.take boldPart.length).length = min boldPart.length line.length :=
    List.length_take _ _
  have hrtlen : (line.drop boldPart.length).length = line.length - boldPart.length :=
    List.length_drop _ _
  have hsum : (line.take boldPart.length).length + (line.drop boldPart.length).length =
      line.length := by omega
  have hpadN : ((width : Int) - 2 -
      (2 + (line.take boldPart.length).length + (line.drop boldPart.length).length)).toNat =
      width - 4 - line.length := by omega
  constructor
  · intro c hc
    rw [List.cons_append] at hc
    rcases List.mem_cons.mp hc with h | h
    · subst h; decide
    · rcases List.mem_append.mp h with h | h
      · rcases List.mem_append.mp h with h | h
        · rcases List.mem_append.mp h with h | h
          · rcases List.mem_append.mp h with h | h
            · rcases List.mem_append.mp h with h | h
              · rcases List.mem_append.mp h with h | h
                · rcases List.mem_append.mp h with h | h
                  · simp at h; subst h; decide
                  · exact mem_code_not_nl MENU_BOLD (Or.inl rfl) c h
                · exact (hbt c h).2
              · exact mem_code_not_nl MENU_COLOR_RESET (Or.inr (Or.inl rfl)) c h
            · exact (hrt c h).2
          · rw [List.eq_of_mem_replicate h]; decide
        · simp at h; subst h; decide
      · rw [List.mem_singleton] at h; subst h; decide
  · unfold visibleLen
    rw [List.cons_append, stripAnsi_cons_ne _ _ (by decide)]
    simp only [List.append_assoc, List.cons_append, List.nil_append]
    rw [stripAnsi_cons_ne _ _ (by decide), stripAnsi_cons_ne _ _ (by decide)]
    rw [stripAnsi_code MENU_BOLD (Or.inl rfl)]
    rw [stripAnsi_escfree_append _ (fun c hc => (hbt c hc).1)]
    rw [stripAnsi_code MENU_COLOR_RESET (Or.inr (Or.inl rfl))]
    rw [stripAnsi_escfree _ (fun c hc => by
      rcases List.mem_append.mp hc with h | h
      · exact (hrt c h).1
      · rcases List.mem_append.mp h with h | h
        · rw [List.eq_of_mem_replicate h]; decide
        · rcases List.mem_cons.mp h with h | h
          · subst h; decide
          · rcases List.mem_cons.mp h with h | h
            · subst h; decide
            · rw [List.mem_singleton.mp h]; decide)]
    simp only [List.length_cons, List.length_append, List.length_replicate,
      List.length_singleton, List.length_nil]
    omega

theorem middleLines_ok (width : Nat) (h4 : 4 ≤ width) (m : MiddleEntry)
    (hesc : ∀ c ∈ middleText m, ¬ c = '\x1b') :
    ∀ l ∈ menuBoxMiddleLines width m, LineOk width l := by
  cases m with
  | plain t =>
    intro l hl
    simp only [menuBoxMiddleLines] at hl
    obtain ⟨line, hline, rfl⟩ := List.mem_map.mp hl
    apply styledLine_ok width MENU_BOLD line (Or.inl rfl)
    intro c hc
    rcases wrapText_chars t (width : Int) line hline c hc with h | ⟨hws, hmem⟩
    · subst h; exact ⟨by decide, by decide⟩
    · refine ⟨hesc c hmem, ?_⟩
      intro hcon
      subst hcon
      simp [isWS] at hws
  | pair b r =>
    intro l hl
    simp only [menuBoxMiddleLines] at hl
    have hchars : ∀ line ∈ wrapText (b ++ r) ((width : Int) - 4),
        ∀ c ∈ line, ¬ c = '\x1b' ∧ ¬ c = '\n' := by
      intro line hline c hc
      rcases wrapText_chars (b ++ r) ((width : Int) - 4) line hline c hc with h | ⟨hws, hmem⟩
      · subst h; exact ⟨by decide, by decide⟩
      · refine ⟨hesc c hmem, ?_⟩
        intro hcon
        subst hcon
        simp [isWS] at hws
    have hlens : ∀ line ∈ wrapText (b ++ r) ((width : Int) - 4),
        (line.length : Int) ≤ (width : Int) - 4 :=
      wrapText_len (b ++ r) _ (by omega)
    cases hwr : wrapText (b ++ r) ((width : Int) - 4) with
    | nil => rw [hwr] at hl; simp at hl
    | cons l0 more =>
      rw [hwr] at hl
      simp only at hl
      rcases List.mem_cons.mp hl with h | h
      · subst h
        exact pairFirstLine_ok width h4 b l0
          (hlens l0 (hwr ▸ List.mem_cons_self l0 more))
          (hchars l0 (hwr ▸ List.mem_cons_self l0 more))
      · obtain ⟨line, hline, rfl⟩ := List.mem_map.mp h
        exact pairContLine_ok width h4 line
          (hlens line (hwr ▸ List.mem_cons_of_mem l0 hline))
          (hchars line (hwr ▸ List.mem_cons_of_mem l0 hline))

theorem splitNl_single (s : Str) (h : ∀ c ∈ s, ¬ c = '\n') : splitNl s = [s] := by
  induction s with
  | nil => rfl
  | cons c s ih =>
    have hc : ¬ c = '\n' := h c (List.mem_cons_self c s)
    simp only [splitNl, hc, if_false]
    rw [ih (fun d hd => h d (List.mem_cons_of_mem c hd))]

theorem splitNl_append_nl (a b : Str) (h : ∀ c ∈ a, ¬ c = '\n') :
    splitNl (a ++ '\n' :: b) = a :: splitNl b := by
  induction a with
  | nil => simp [splitNl]
  | cons c a ih =>
    have hc : ¬ c = '\n' := h c (List.mem_cons_self c a)
    rw [List.cons_append]
    simp only [splitNl, hc, if_false]
    rw [ih (fun d hd => h d (List.mem_cons_of_mem c hd))]

theorem splitNl_joinNl (L : List Str) (hne : L ≠ [])
    (h : ∀ l ∈ L, ∀ c ∈ l, ¬ c = '\n') : splitNl (joinNl L) = L := by
  induction L with
  | nil => simp at hne
  | cons l L ih =>
    cases L with
    | nil => exact splitNl_single l (h l (List.mem_singleton_self l))
    | cons l' L' =>
      simp only [joinNl]
      rw [splitNl_append_nl l _ (h l (List.mem_cons_self _ _))]
      rw [ih (by simp) (fun m hm => h m (List.mem_cons_of_mem l hm))]

/-- C6 (amended): for every plain-text title and option labels (no escape or
newline characters), middle entries free of escape characters, interior width
at least 4, and either middle position, every line of the rendered box has
visible length `width + 2`, where visible length ignores ANSI style codes. -/
theorem menuBox_lines_aligned (title : Str) (options : List MenuOption)
    (width : Nat) (middle : List MiddleEntry) (middleBottom : Bool)
    (h4 : 4 ≤ width)
    (htitle : ∀ c ∈ title, ¬ c = '\x1b' ∧ ¬ c = '\n')
    (hopts : ∀ o ∈ options, ∀ c ∈ optText o, ¬ c = '\x1b' ∧ ¬ c = '\n')
    (hmid : ∀ m ∈ middle, ∀ c ∈ middleText m, ¬ c = '\x1b') :
    ∀ l ∈ splitNl (menuBox title options width middle middleBottom),
      visibleLen l = width + 2 := by
  have hrule : ∀ c1 c2 : Char, (¬ c1 = '\x1b' ∧ ¬ c1 = '\n') → (¬ c2 = '\x1b' ∧ ¬ c2 = '\n') →
      LineOk width (c1 :: List.replicate width '═' ++ [c2]) := boxRule_ok width
  have htitleLine : LineOk width
      ('║' :: (MENU_BOLD ++ pyLjust (title.take width) width ++ MENU_COLOR_RESET) ++ ['║']) :=
    styledLine_ok width MENU_BOLD title (Or.inl rfl) htitle
  have hoptLines : ∀ l ∈ options.map (menuBoxOptionLine width), LineOk width l := by
    intro l hl
    obtain ⟨o, ho, rfl⟩ := List.mem_map.mp hl
    unfold menuBoxOptionLine
    split_ifs with hh1 hh2
    · exact styledLine_ok width MENU_COLOR_DISABLED (optText o)
        (Or.inr (Or.inr (Or.inr (Or.inr rfl)))) (hopts o ho)
    · exact styledLine_ok width MENU_COLOR_RED (optText o)
        (Or.inr (Or.inr (Or.inr (Or.inl rfl)))) (hopts o ho)
    · exact styledLine_ok width MENU_COLOR_BLACK (optText o)
        (Or.inr (Or.inr (Or.inl rfl))) (hopts o ho)
  have hmidLines : ∀ l ∈ middle.flatMap (menuBoxMiddleLines width), LineOk width l := by
    intro l hl
    obtain ⟨m, hm, hlm⟩ := List.mem_flatMap.mp hl
    exact middleLines_ok width h4 m (hmid m hm) l hlm
  intro l hl
  unfold menuBox at hl
  by_cases hcond : middle.flatMap (menuBoxMiddleLines width) ≠ [] ∧ middleBottom = true
  · rw [if_pos hcond] at hl
    have hall : ∀ x ∈ ['╔' :: List.replicate width '═' ++ ['╗'],
        '║' :: (MENU_BOLD ++ pyLjust (title.take width) width ++ MENU_COLOR_RESET) ++ ['║'],
        '╠' :: List.replicate width '═' ++ ['╣']] ++ options.map (menuBoxOptionLine width) ++
        ['╠' :: List.replicate width '═' ++ ['╣']] ++
        middle.flatMap (menuBoxMiddleLines width) ++
        ['╚' :: List.replicate width '═' ++ ['╝']], LineOk width x := by
      intro x hx
      rcases List.mem_append.mp hx with hx | hx
      · rcases List.mem_append.mp hx with hx | hx
        · rcases List.mem_append.mp hx with hx | hx
          · rcases List.mem_append.mp hx with hx | hx
            · rcases List.mem_cons.mp hx with hx | hx
              · exact hx ▸ hrule '╔' '╗' (by decide) (by decide)
              · rcases List.mem_cons.mp hx with hx | hx
                · exact hx ▸ htitleLine
                · rw [List.mem_singleton.mp hx]
                  exact hrule '╠' '╣' (by decide) (by decide)
            · exact hoptLines x hx
          · rw [List.mem_singleton.mp hx]
            exact hrule '╠' '╣' (by decide) (by decide)
        · exact hmidLines x hx
      · rw [List.mem_singleton.mp hx]
        exact hrule '╚' '╝' (by decide) (by decide)
    rw [splitNl_joinNl _ (by simp) (fun m hm => (hall m hm).1)] at hl
    exact (hall l hl).2
  · rw [if_neg hcond] at hl
    have hall : ∀ x ∈ ['╔' :: List.replicate width '═' ++ ['╗'],
        '║' :: (MENU_BOLD ++ pyLjust (title.take width) width ++ MENU_COLOR_RESET) ++ ['║'],
        '╠' :: List.replicate width '═' ++ ['╣']] ++
        middle.flatMap (menuBoxMiddleLines width) ++
        options.map (menuBoxOptionLine width) ++
        ['╚' :: List.replicate width '═' ++ ['╝']], LineOk width x := by
      intro x hx
      rcases List.mem_append.mp hx with hx | hx
      · rcases List.mem_append.mp hx with hx | hx
        · rcases List.mem_append.mp hx with hx | hx
          · rcases List.mem_cons.mp hx with hx | hx
            · exact hx ▸ hrule '╔' '╗' (by decide) (by decide)
            · rcases List.mem_cons.mp hx with hx | hx
              · exact hx ▸ htitleLine
              · rw [List.mem_singleton.mp hx]
                exact hrule '╠' '╣' (by decide) (by decide)
          · exact hmidLines x hx
        · exact hoptLines x hx
      · rw [List.mem_singleton.mp hx]
        exact hrule '╚' '╝' (by decide) (by decide)
    rw [splitNl_joinNl _ (by simp) (fun m hm => (hall m hm).1)] at hl
    exact (hall l hl).2

/-- C6 counterexample: with interior width 2 and the middle entry
`("AB", "CDE")`, the wrapper is called with negative width, Python's negative
slicing truncates the word to "ABC", and the first middle line comes out with
visible length 8 instead of width + 2 = 4: the box is not aligned. -/
theorem menuBox_lines_aligned_cex :
    ¬ (∀ l ∈ splitNl (menuBox [] [] 2
        [MiddleEntry.pair ("AB".toList) ("CDE".toList)] false),
        visibleLen l = 2 + 2) := by
  decide

/-- C6 witness: in a concrete box with both kinds of middle entry at width 8,
the top border line (a member of the rendered lines) has visible length 10. -/
theorem menuBox_lines_aligned_witness :
    visibleLen ('╔' :: List.replicate 8 '═' ++ ['╗']) = 8 + 2 :=
  menuBox_lines_aligned ("Hi".toList)
    [MenuOption.plain ("1. A".toList), MenuOption.tup3 ("2. B".toList) true true,
      MenuOption.tup2 ("3. C".toList) false] 8
    [MiddleEntry.pair ("B:".toList) (" rest here".toList),
      MiddleEntry.plain ("p q".toList)] true
    (by decide) (by decide) (by decide) (by decide)
    ('╔' :: List.replicate 8 '═' ++ ['╗']) (by decide)

/-! The numeric prompt `_prompt_choice` (app.py lines 67-76) and one
iteration of the submenu loop `_run_submenu` (app.py lines 176-197). -/

/-- Value of a non-empty all-digit string. -/
def digitsVal (ds : Str) : Option Nat :=
  if ds ≠ [] ∧ ds.all Char.isDigit then
    some (ds.foldl (fun n c => n * 10 + (c.toNat - '0'.toNat)) 0)
  else none

/-- Python `int(s)` on a string: optional sign, digits, surrounding
whitespace tolerated; `none` models `ValueError`. -/
def pyParseInt (s : Str) : Option Int :=
  match pyStrip s with
  | '+' :: rest => (digitsVal rest).map (fun n => (n : Int))
  | '-' :: rest => (digitsVal rest).map (fun n => -(n : Int))
  | t => (digitsVal t).map (fun n => (n : Int))

/-- The prompt helper: returns the 1-based choice when the stripped input
parses as an integer within `[1, maxOption]`, and 0 otherwise. -/
def promptChoice (raw : Str) (maxOption : Int) : Int :=
  match pyParseInt (pyStrip raw) with
  | none => 0
  | some choice => if 1 ≤ choice ∧ choice ≤ maxOption then choice else 0

/-- Observable outcome of one iteration of `_run_submenu`: print the invalid
message and pause, leave the loop, run an action (with or without the
post-action pause), or silently clear and redraw. -/
inductive SubmenuOutcome where
  | invalidPause
  | exitLoop
  | actionPause (choice : Int)
  | actionNoPause (choice : Int)
  | redraw
deriving DecidableEq

/-- One iteration of the `_run_submenu` loop.  An action is modelled by
whether its call returns `True` (which suppresses the pause). -/
def runSubmenuStep (menuMax : Int) (actions : List (Int × Bool)) (raw : Str) :
    SubmenuOutcome :=
  let choice := promptChoice raw menuMax
  if choice = 0 then .invalidPause
  else if choice = menuMax then .exitLoop
  else
    match actions.lookup choice with
    | some returnedTrue =>
      if returnedTrue then .actionNoPause choice else .actionPause choice
    | none => .redraw

/-- C3 counterexample: in the direct-reports submenu without Mistral the
action table registers options 1, 2, 3 and 5 of 6; input "4" is a valid
in-range number with no action, yet the outcome is a silent redraw, not the
invalid-option message with a pause that the claim requires. -/
theorem submenu_reserved_slot_cex :
    (1 : Int) ≤ promptChoice ("4".toList) 6 ∧
    promptChoice ("4".toList) 6 < 6 ∧
    List.lookup (promptChoice ("4".toList) 6)
      [((1 : Int), false), (2, false), (3, false), (5, false)] = none ∧
    runSubmenuStep 6 [(1, false), (2, false), (3, false), (5, false)] ("4".toList) =
      SubmenuOutcome.redraw ∧
    SubmenuOutcome.redraw ≠ SubmenuOutcome.invalidPause := by
  decide

/-- C3 (amended): a valid in-range selection that is not the back option and
has no registered action is silently ignored — the loop clears and re-prompts
with no invalid-option message and no pause — whereas invalid input produces
the message and a pause. -/
theorem submenu_reserved_slot (menuMax : Int) (actions : List (Int × Bool)) (raw : Str)
    (h1 : 1 ≤ promptChoice raw menuMax)
    (h2 : promptChoice raw menuMax ≠ menuMax)
    (h3 : actions.lookup (promptChoice raw menuMax) = none) :
    runSubmenuStep menuMax actions raw = SubmenuOutcome.redraw ∧
    SubmenuOutcome.redraw ≠ SubmenuOutcome.invalidPause := by
  refine ⟨?_, by decide⟩
  unfold runSubmenuStep
  rw [if_neg (by omega), if_neg h2, h3]

/-- C3 witness: the amended theorem applied to the no-Mistral direct-reports
table with input "4". -/
theorem submenu_reserved_slot_witness :
    runSubmenuStep 6 [((1 : Int), false), (2, false), (3, false), (5, false)] ("4".toList) =
      SubmenuOutcome.redraw :=
  (submenu_reserved_slot 6 [(1, false), (2, false), (3, false), (5, false)] ("4".toList)
    (by decide) (by decide) (by decide)).1

/-! Loosely typed record values and Python dicts.  A dict is an ordered
association list; assignment replaces the value in place when the key exists
and appends otherwise, as in Python. -/

/-- JSON-ish values stored in a direct-report record. -/
inductive Value where
  | null
  | str (s : Str)
  | int (n : Int)
  | bool (b : Bool)
deriving DecidableEq

/-- Abbreviation for building a string value from a literal. -/
def strv (s : String) : Value := .str s.toList

/-- A Python dict of string keys. -/
abbrev Dict := List (String × Value)

/-- Python `d.get(k)` (first binding; dicts built by `dInsert` have unique keys). -/
def dGet : Dict → String → Option Value
  | [], _ => none
  | (k, v) :: d, key => if k = key then some v else dGet d key

/-- Python `d[k] = v`: replace in place if present, else append. -/
def dInsert : Dict → String → Value → Dict
  | [], key, v => [(key, v)]
  | (k, w) :: d, key, v => if k = key then (k, v) :: d else (k, w) :: dInsert d key v

/-- Python `k in d`. -/
def dMem (d : Dict) (k : String) : Bool := (dGet d k).isSome

/-- The keys of a dict, in order. -/
def dKeys (d : Dict) : List String := d.map Prod.fst

/-- A dict with pairwise distinct keys (always true of actual Python dicts). -/
def NodupKeys (d : Dict) : Prop := (dKeys d).Nodup

theorem dGet_dInsert_self (d : Dict) (k : String) (v : Value) :
    dGet (dInsert d k v) k = some v := by
  induction d with
  | nil => simp [dInsert, dGet]
  | cons kv d ih =>
    obtain ⟨k1, v1⟩ := kv
    by_cases h : k1 = k
    · simp [dInsert, dGet, h]
    · simp [dInsert, dGet, h, ih]

theorem dKeys_cons (k : String) (v : Value) (d : Dict) :
    dKeys ((k, v) :: d) = k :: dKeys d := rfl

theorem dGet_dInsert_ne (d : Dict) (k k' : String) (v : Value) (h : ¬ k' = k) :
    dGet (dInsert d k v) k' = dGet d k' := by
  induction d with
  | nil =>
    show dGet [(k, v)] k' = dGet [] k'
    simp only [dGet]
    rw [if_neg (by intro hc; exact h hc.symm)]
  | cons kv d ih =>
    obtain ⟨k1, v1⟩ := kv
    by_cases h1 : k1 = k
    · subst h1
      show dGet (if k1 = k1 then (k1, v) :: d else (k1, v1) :: dInsert d k1 v) k' = _
      rw [if_pos rfl]
      simp only [dGet]
      rw [if_neg (by intro hc; exact h hc.symm), if_neg (by intro hc; exact h hc.symm)]
    · show dGet (if k1 = k then (k1, v) :: d else (k1, v1) :: dInsert d k v) k' = _
      rw [if_neg h1]
      simp only [dGet]
      by_cases h2 : k1 = k'
      · rw [if_pos h2, if_pos h2]
      · rw [if_neg h2, if_neg h2, ih]

theorem dGet_eq_none_iff (d : Dict) (k : String) : dGet d k = none ↔ k ∉ dKeys d := by
  induction d with
  | nil => simp [dGet, dKeys]
  | cons kv d ih =>
    obtain ⟨k1, v1⟩ := kv
    rw [dKeys_cons]
    simp only [dGet, List.mem_cons]
    by_cases h : k1 = k
    · subst h; simp
    · simp only [h, if_false]
      rw [ih]
      constructor
      · intro hn hc
        rcases hc with hc | hc
        · exact h hc.symm
        · exact hn hc
      · intro hn hc
        exact hn (Or.inr hc)

theorem dKeys_dInsert_mem (d : Dict) (k : String) (v : Value) (h : k ∈ dKeys d) :
    dKeys (dInsert d k v) = dKeys d := by
  induction d with
  | nil => simp [dKeys] at h
  | cons kv d ih =>
    obtain ⟨k1, v1⟩ := kv
    by_cases h1 : k1 = k
    · show dKeys (if k1 = k then (k1, v) :: d else (k1, v1) :: dInsert d k v) = _
      rw [if_pos h1]
      rw [dKeys_cons, dKeys_cons]
    · show dKeys (if k1 = k then (k1, v) :: d else (k1, v1) :: dInsert d k v) = _
      rw [if_neg h1, dKeys_cons, dKeys_cons]
      rw [dKeys_cons] at h
      have hm : k ∈ dKeys d := by
        rcases List.mem_cons.mp h with hc | hc
        · exact absurd hc.symm h1
        · exact hc
      rw [ih hm]

theorem dKeys_dInsert_not_mem (d : Dict) (k : String) (v : Value) (h : k ∉ dKeys d) :
    dKeys (dInsert d k v) = dKeys d ++ [k] := by
  induction d with
  | nil => simp [dInsert, dKeys]
  | cons kv d ih =>
    obtain ⟨k1, v1⟩ := kv
    rw [dKeys_cons] at h
    have h1 : ¬ k1 = k := by
      intro hc
      exact h (hc ▸ List.mem_cons_self k1 (dKeys d))
    have h2 : k ∉ dKeys d := fun hc => h (List.mem_cons_of_mem k1 hc)
    show dKeys (if k1 = k then (k1, v) :: d else (k1, v1) :: dInsert d k v) = _
    rw [if_neg h1, dKeys_cons, dKeys_cons, ih h2]
    rfl

theorem dInsert_nodup (d : Dict) (k : String) (v : Value) (h : NodupKeys d) :
    NodupKeys (dInsert d k v) := by
  unfold NodupKeys
  by_cases hm : k ∈ dKeys d
  · rw [dKeys_dInsert_mem d k v hm]; exact h
  · rw [dKeys_dInsert_not_mem d k v hm]
    simpa [List.nodup_append] using ⟨h, hm⟩

theorem dInsert_not_mem_eq_append (d : Dict) (k : String) (v : Value)
    (h : k ∉ dKeys d) : dInsert d k v = d ++ [(k, v)] := by
  induction d with
  | nil => simp [dInsert]
  | cons kv d ih =>
    obtain ⟨k1, v1⟩ := kv
    rw [dKeys_cons] at h
    have h1 : ¬ k1 = k := by
      intro hc
      exact h (hc ▸ List.mem_cons_self k1 (dKeys d))
    have h2 : k ∉ dKeys d := fun hc => h (List.mem_cons_of_mem k1 hc)
    show (if k1 = k then (k1, v) :: d else (k1, v1) :: dInsert d k v) = _
    rw [if_neg h1, ih h2]
    rfl

/-! Record normalization `_normalize_direct_report` (app.py lines 228-246). -/

/-- The optional keys of the Direct_Reports schema (app.py lines 27-30). -/
def DIRECT_REPORT_OPTIONAL_KEYS : List String :=
  ["street_address_1", "street_address_2", "city", "state", "zipcode", "country",
   "birthday", "hire_date", "current_role", "role_start_date", "partner_name"]

/-- The legacy camelCase key renaming `key_map.get(k, k)`. -/
def keyMap (k : String) : String :=
  if k = "firstName" then "first_name"
  else if k = "lastName" then "last_name"
  else if k = "birthdate" then "birthday"
  else if k = "hireDate" then "hire_date"
  else if k = "partnerName" then "partner_name"
  else k

/-- The key-renaming pass: `out[key_map.get(k, k)] = v` over the items. -/
def dMigrate (r : Dict) : Dict :=
  r.foldl (fun out kv => dInsert out (keyMap kv.1) kv.2) []

/-- Fill a required text field with `""` when absent or null. -/
def fillRequired (d : Dict) (k : String) : Dict :=
  match dGet d k with
  | none => dInsert d k (.str [])
  | some .null => dInsert d k (.str [])
  | some _ => d

/-- Fill each absent optional field with null. -/
def fillOptional (d : Dict) : Dict :=
  DIRECT_REPORT_OPTIONAL_KEYS.foldl
    (fun out k => if dMem out k then out else dInsert out k .null) d

/-- `_normalize_direct_report`: rename legacy keys, default the required
names, default the optional fields. -/
def normalizeDirectReport (r : Dict) : Dict :=
  fillOptional (fillRequired (fillRequired (dMigrate r) "first_name") "last_name")

theorem keyMap_idem (k : String) : keyMap (keyMap k) = keyMap k := by
  unfold keyMap
  split_ifs with h1 h2 h3 h4 h5 <;> simp_all

theorem keyMap_preimage (k' k : String) (h : keyMap k' = k) :
    k' = k ∨ k ∈ ["first_name", "last_name", "birthday", "hire_date", "partner_name"] := by
  unfold keyMap at h
  split_ifs at h with h1 h2 h3 h4 h5
  · subst h; simp
  · subst h; simp
  · subst h; simp
  · subst h; simp
  · subst h; simp
  · exact Or.inl h

theorem foldInsert_nodup (l : List (String × Value)) :
    ∀ acc : Dict, NodupKeys acc →
      NodupKeys (l.foldl (fun out kv => dInsert out (keyMap kv.1) kv.2) acc) := by
  induction l with
  | nil => intro acc h; exact h
  | cons kv l ih =>
    intro acc h
    exact ih _ (dInsert_nodup acc _ kv.2 h)

theorem foldInsert_keys_fixed (l : List (String × Value)) :
    ∀ acc : Dict, (∀ k ∈ dKeys acc, keyMap k = k) →
      ∀ k ∈ dKeys (l.foldl (fun out kv => dInsert out (keyMap kv.1) kv.2) acc),
        keyMap k = k := by
  induction l with
  | nil => intro acc h; exact h
  | cons kv l ih =>
    intro acc h
    apply ih
    intro k hk
    by_cases hm : keyMap kv.1 ∈ dKeys acc
    · rw [dKeys_dInsert_mem acc _ kv.2 hm] at hk
      exact h k hk
    · rw [dKeys_dInsert_not_mem acc _ kv.2 hm] at hk
      rcases List.mem_append.mp hk with hk | hk
      · exact h k hk
      · rw [List.mem_singleton.mp hk]
        exact keyMap_idem kv.1

theorem dMigrate_nodup (r : Dict) : NodupKeys (dMigrate r) :=
  foldInsert_nodup r [] (by simp [NodupKeys, dKeys])

theorem dMigrate_keys_fixed (r : Dict) :
    ∀ k ∈ dKeys (dMigrate r), keyMap k = k :=
  foldInsert_keys_fixed r [] (by simp [dKeys])

theorem foldInsert_fixed_eq (l : List (String × Value)) :
    ∀ acc : Dict, (∀ kv ∈ l, keyMap kv.1 = kv.1) → NodupKeys l →
      (∀ k ∈ dKeys l, k ∉ dKeys acc) →
      l.foldl (fun out kv => dInsert out (keyMap kv.1) kv.2) acc = acc ++ l := by
  induction l with
  | nil => intro acc _ _ _; simp
  | cons kv l ih =>
    intro acc hfix hnd hdisj
    obtain ⟨k1, v1⟩ := kv
    have hk1 : keyMap k1 = k1 := hfix (k1, v1) (List.mem_cons_self _ _)
    have hk1acc : k1 ∉ dKeys acc :=
      hdisj k1 (by rw [dKeys_cons]; exact List.mem_cons_self _ _)
    simp only [List.foldl_cons]
    rw [hk1, dInsert_not_mem_eq_append acc k1 v1 hk1acc]
    rw [ih (acc ++ [(k1, v1)])
      (fun kv2 h2 => hfix kv2 (List.mem_cons_of_mem _ h2))
      (by
        unfold NodupKeys at hnd ⊢
        rw [dKeys_cons] at hnd
        exact (List.nodup_cons.mp hnd).2)
      (by
        intro k hk
        have hk1k : ¬ k = k1 := by
          unfold NodupKeys at hnd
          rw [dKeys_cons] at hnd
          intro hc
          exact (List.nodup_cons.mp hnd).1 (hc ▸ hk)
        intro hc
        unfold dKeys at hc
        rw [List.map_append] at hc
        rcases List.mem_append.mp hc with hc | hc
        · exact hdisj k (by rw [dKeys_cons]; exact List.mem_cons_of_mem _ hk) hc
        · simp at hc
          exact hk1k hc)]
    simp

theorem dMigrate_fixed (d : Dict) (hfix : ∀ kv ∈ d, keyMap kv.1 = kv.1)
    (hnd : NodupKeys d) : dMigrate d = d := by
  unfold dMigrate
  rw [foldInsert_fixed_eq d [] hfix hnd (by simp [dKeys])]
  simp

theorem fillRequired_nodup (d : Dict) (k : String) (h : NodupKeys d) :
    NodupKeys (fillRequired d k) := by
  unfold fillRequired
  cases hg : dGet d k with
  | none => exact dInsert_nodup d k _ h
  | some v => cases v <;> first | exact dInsert_nodup d k _ h | exact h

theorem fillRequired_keys_fixed (d : Dict) (k : String) (hk : keyMap k = k)
    (h : ∀ k' ∈ dKeys d, keyMap k' = k') :
    ∀ k' ∈ dKeys (fillRequired d k), keyMap k' = k' := by
  have hins : ∀ v : Value, ∀ k' ∈ dKeys (dInsert d k v), keyMap k' = k' := by
    intro v k' hk'
    by_cases hm : k ∈ dKeys d
    · rw [dKeys_dInsert_mem d k v hm] at hk'
      exact h k' hk'
    · rw [dKeys_dInsert_not_mem d k v hm] at hk'
      rcases List.mem_append.mp hk' with hk' | hk'
      · exact h k' hk'
      · rw [List.mem_singleton.mp hk']; exact hk
  unfold fillRequired
  cases hg : dGet d k with
  | none => exact hins _
  | some v => cases v <;> first | exact hins _ | exact h

theorem fillRequired_get_self (d : Dict) (k : String) :
    ∃ v, dGet (fillRequired d k) k = some v ∧ v ≠ Value.null := by
  unfold fillRequired
  cases hg : dGet d k with
  | none => exact ⟨.str [], dGet_dInsert_self d k _, by simp⟩
  | some v =>
    cases v with
    | null => exact ⟨.str [], dGet_dInsert_self d k _, by simp⟩
    | str s => exact ⟨.str s, hg, by simp⟩
    | int n => exact ⟨.int n, hg, by simp⟩
    | bool b => exact ⟨.bool b, hg, by simp⟩

theorem fillRequired_get_ne (d : Dict) (k k' : String) (h : ¬ k' = k) :
    dGet (fillRequired d k) k' = dGet d k' := by
  unfold fillRequired
  cases hg : dGet d k with
  | none => exact dGet_dInsert_ne d k k' _ h
  | some v => cases v <;> first | exact dGet_dInsert_ne d k k' _ h | rfl

theorem fillRequired_eq_self (d : Dict) (k : String) (v : Value)
    (hg : dGet d k = some v) (hv : v ≠ Value.null) : fillRequired d k = d := by
  unfold fillRequired
  rw [hg]
  cases v with
  | null => exact absurd rfl hv
  | str s => rfl
  | int n => rfl
  | bool b => rfl

theorem dMem_dInsert (d : Dict) (k k' : String) (v : Value) :
    dMem (dInsert d k v) k' = (dMem d k' || (k' = k)) := by
  unfold dMem
  by_cases h : k' = k
  · subst h
    rw [dGet_dInsert_self]
    simp
  · rw [dGet_dInsert_ne d k k' v h]
    simp [h]

theorem foldOpt_get_ne (ks : List String) :
    ∀ (d : Dict) (k : String), k ∉ ks →
      dGet (ks.foldl (fun out k' => if dMem out k' then out else dInsert out k' .null) d) k =
        dGet d k := by
  induction ks with
  | nil => intro d k _; rfl
  | cons k1 ks ih =>
    intro d k hk
    have hne : ¬ k = k1 := fun hc => hk (hc ▸ List.mem_cons_self k1 ks)
    have hk2 : k ∉ ks := fun hc => hk (List.mem_cons_of_mem k1 hc)
    simp only [List.foldl_cons]
    rw [ih _ k hk2]
    by_cases hm : dMem d k1
    · rw [if_pos hm]
    · rw [if_neg hm, dGet_dInsert_ne d k1 k _ hne]

theorem foldOpt_mem_mono (ks : List String) :
    ∀ (d : Dict) (k : String), dMem d k = true →
      dMem (ks.foldl (fun out k' => if dMem out k' then out else dInsert out k' .null) d) k =
        true := by
  induction ks with
  | nil => intro d k h; exact h
  | cons k1 ks ih =>
    intro d k h
    simp only [List.foldl_cons]
    apply ih
    by_cases hm : dMem d k1
    · rw [if_pos hm]; exact h
    · rw [if_neg hm, dMem_dInsert]
      simp [h]

theorem foldOpt_mem (ks : List String) :
    ∀ (d : Dict) (k : String), k ∈ ks →
      dMem (ks.foldl (fun out k' => if dMem out k' then out else dInsert out k' .null) d) k =
        true := by
  induction ks with
  | nil => intro d k h; simp at h
  | cons k1 ks ih =>
    intro d k h
    simp only [List.foldl_cons]
    rcases List.mem_cons.mp h with h | h
    · subst h
      apply foldOpt_mem_mono
      by_cases hm : dMem d k
      · rw [if_pos hm]; exact hm
      · rw [if_neg hm, dMem_dInsert]; simp
    · exact ih _ k h

theorem foldOpt_nodup (ks : List String) :
    ∀ d : Dict, NodupKeys d →
      NodupKeys (ks.foldl (fun out k' => if dMem out k' then out else dInsert out k' .null) d) := by
  induction ks with
  | nil => intro d h; exact h
  | cons k1 ks ih =>
    intro d h
    simp only [List.foldl_cons]
    apply ih
    by_cases hm : dMem d k1
    · rw [if_pos hm]; exact h
    · rw [if_neg hm]; exact dInsert_nodup d k1 _ h

theorem foldOpt_keys_fixed (ks : List String) (hks : ∀ k ∈ ks, keyMap k = k) :
    ∀ d : Dict, (∀ k ∈ dKeys d, keyMap k = k) →
      ∀ k ∈ dKeys (ks.foldl (fun out k' => if dMem out k' then out else dInsert out k' .null) d),
        keyMap k = k := by
  induction ks with
  | nil => intro d h; exact h
  | cons k1 ks ih =>
    intro d h
    simp only [List.foldl_cons]
    apply ih (fun k hk => hks k (List.mem_cons_of_mem k1 hk))
    by_cases hm : dMem d k1
    · rw [if_pos hm]; exact h
    · rw [if_neg hm]
      intro k hk
      by_cases hm2 : k1 ∈ dKeys d
      · rw [dKeys_dInsert_mem d k1 _ hm2] at hk; exact h k hk
      · rw [dKeys_dInsert_not_mem d k1 _ hm2] at hk
        rcases List.mem_append.mp hk with hk | hk
        · exact h k hk
        · rw [List.mem_singleton.mp hk]
          exact hks k1 (List.mem_cons_self k1 ks)

theorem foldOpt_id (ks : List String) :
    ∀ d : Dict, (∀ k ∈ ks, dMem d k = true) →
      ks.foldl (fun out k' => if dMem out k' then out else dInsert out k' .null) d = d := by
  induction ks with
  | nil => intro d _; rfl
  | cons k1 ks ih =>
    intro d h
    simp only [List.foldl_cons]
    rw [if_pos (h k1 (List.mem_cons_self k1 ks))]
    exact ih d (fun k hk => h k (List.mem_cons_of_mem k1 hk))

/-- C9.  `_normalize_direct_report` is a total Lean function on arbitrary
loosely typed records, and it is idempotent: normalizing twice equals
normalizing once. -/
theorem normalizeDirectReport_idem (r : Dict) :
    normalizeDirectReport (normalizeDirectReport r) = normalizeDirectReport r := by
  have hknfn : keyMap "first_name" = "first_name" := by decide
  have hknln : keyMap "last_name" = "last_name" := by decide
  have hopt : ∀ k ∈ DIRECT_REPORT_OPTIONAL_KEYS, keyMap k = k := by decide
  set y := normalizeDirectReport r with hy
  have f1 : NodupKeys y := by
    rw [hy]
    unfold normalizeDirectReport fillOptional
    exact foldOpt_nodup _ _ (fillRequired_nodup _ _ (fillRequired_nodup _ _ (dMigrate_nodup r)))
  have f2 : ∀ k ∈ dKeys y, keyMap k = k := by
    rw [hy]
    unfold normalizeDirectReport fillOptional
    exact foldOpt_keys_fixed _ hopt _
      (fillRequired_keys_fixed _ _ hknln
        (fillRequired_keys_fixed _ _ hknfn (dMigrate_keys_fixed r)))
  have f3 : ∃ v, dGet y "first_name" = some v ∧ v ≠ Value.null := by
    rw [hy]
    unfold normalizeDirectReport fillOptional
    obtain ⟨v, hv, hvn⟩ := fillRequired_get_self (dMigrate r) "first_name"
    refine ⟨v, ?_, hvn⟩
    rw [foldOpt_get_ne _ _ _ (by decide), fillRequired_get_ne _ _ _ (by decide)]
    exact hv
  have f4 : ∃ v, dGet y "last_name" = some v ∧ v ≠ Value.null := by
    rw [hy]
    unfold normalizeDirectReport fillOptional
    obtain ⟨v, hv, hvn⟩ := fillRequired_get_self (fillRequired (dMigrate r) "first_name") "last_name"
    refine ⟨v, ?_, hvn⟩
    rw [foldOpt_get_ne _ _ _ (by decide)]
    exact hv
  have f5 : ∀ k ∈ DIRECT_REPORT_OPTIONAL_KEYS, dMem y k = true := by
    rw [hy]
    unfold normalizeDirectReport fillOptional
    intro k hk
    exact foldOpt_mem _ _ k hk
  obtain ⟨v1, hv1, hv1n⟩ := f3
  obtain ⟨v2, hv2, hv2n⟩ := f4
  conv_lhs => unfold normalizeDirectReport
  rw [dMigrate_fixed y (fun kv hkv => f2 kv.1 (List.mem_map_of_mem Prod.fst hkv)) f1]
  rw [fillRequired_eq_self y "first_name" v1 hv1 hv1n]
  rw [fillRequired_eq_self y "last_name" v2 hv2 hv2n]
  unfold fillOptional
  exact foldOpt_id _ y f5

theorem dGet_foldInsert_or (l : List (String × Value)) (k : String) (hk : keyMap k = k)
    (hpre : ∀ kv ∈ l, keyMap kv.1 = k → kv.1 = k) (hnd : NodupKeys l) :
    ∀ acc : Dict,
      dGet (l.foldl (fun out kv => dInsert out (keyMap kv.1) kv.2) acc) k =
        (dGet l k).or (dGet acc k) := by
  induction l with
  | nil => intro acc; simp [dGet]
  | cons kv l ih =>
    intro acc
    obtain ⟨k1, v1⟩ := kv
    have hnd' : NodupKeys l := by
      unfold NodupKeys at hnd ⊢
      rw [dKeys_cons] at hnd
      exact (List.nodup_cons.mp hnd).2
    have hpre' : ∀ kv2 ∈ l, keyMap kv2.1 = k → kv2.1 = k :=
      fun kv2 h2 => hpre kv2 (List.mem_cons_of_mem _ h2)
    simp only [List.foldl_cons]
    by_cases hk1 : keyMap k1 = k
    · have hk1k : k1 = k := hpre (k1, v1) (List.mem_cons_self _ _) hk1
      have hlk : dGet l k = none := by
        rw [dGet_eq_none_iff, ← hk1k]
        unfold NodupKeys at hnd
        rw [dKeys_cons] at hnd
        exact (List.nodup_cons.mp hnd).1
      rw [ih hpre' hnd' _, hlk]
      simp only [Option.none_or]
      rw [hk1, dGet_dInsert_self]
      simp [dGet, hk1k]
    · have hk1k : ¬ k1 = k := by
        intro hc
        subst hc
        exact hk1 hk
      rw [ih hpre' hnd' _]
      rw [dGet_dInsert_ne acc (keyMap k1) k v1 (by intro hc; exact hk1 hc.symm)]
      show _ = (dGet ((k1, v1) :: l) k).or _
      simp only [dGet, hk1k, if_false]

theorem dGet_dMigrate (r : Dict) (k : String) (hk : keyMap k = k)
    (hpre : ∀ kv ∈ r, keyMap kv.1 = k → kv.1 = k) (hnd : NodupKeys r) :
    dGet (dMigrate r) k = dGet r k := by
  unfold dMigrate
  rw [dGet_foldInsert_or r k hk hpre hnd []]
  simp [dGet]

/-- C10.  Normalization copies every key that is neither a legacy camelCase
name nor a canonical schema field through unchanged: unrecognized fields are
silently admitted into the normalized record. -/
theorem normalizeDirectReport_passthrough (r : Dict) (k : String) (hnd : NodupKeys r)
    (h1 : k ∉ ["firstName", "lastName", "birthdate", "hireDate", "partnerName"])
    (h2 : k ∉ "id" :: "first_name" :: "last_name" :: DIRECT_REPORT_OPTIONAL_KEYS) :
    dGet (normalizeDirectReport r) k = dGet r k := by
  simp only [List.mem_cons, List.mem_singleton, List.not_mem_nil, or_false] at h1 h2
  push_neg at h1 h2
  obtain ⟨e1, e2, e3, e4, e5⟩ := h1
  obtain ⟨f0, ffn, fln, fopt⟩ := h2
  have hk : keyMap k = k := by
    unfold keyMap
    rw [if_neg e1, if_neg e2, if_neg e3, if_neg e4, if_neg e5]
  have hpre : ∀ kv ∈ r, keyMap kv.1 = k → kv.1 = k := by
    intro kv _ hkv
    rcases keyMap_preimage kv.1 k hkv with h | h
    · exact h
    · exfalso
      simp only [List.mem_cons, List.mem_singleton] at h
      rcases h with h | h | h | h | h
      · exact ffn h
      · exact fln h
      · exact fopt (by rw [h]; decide)
      · exact fopt (by rw [h]; decide)
      · simp at h
        exact fopt (by rw [h]; decide)
  unfold normalizeDirectReport fillOptional
  rw [foldOpt_get_ne _ _ k fopt,
    fillRequired_get_ne _ _ k (by intro hc; exact fln hc),
    fillRequired_get_ne _ _ k (by intro hc; exact ffn hc),
    dGet_dMigrate r k hk hpre hnd]

/-- C10 witness: a record with the unrecognized key "favorite_color" keeps it
with its original value after normalization. -/
theorem normalizeDirectReport_passthrough_witness :
    dGet (normalizeDirectReport
        [("favorite_color", strv "blue"), ("first_name", strv "Ana")]) "favorite_color" =
      dGet [("favorite_color", strv "blue"), ("first_name", strv "Ana")] "favorite_color" :=
  normalizeDirectReport_passthrough _ "favorite_color"
    (by unfold NodupKeys; decide) (by decide) (by decide)

/-! Duplicate-key detection `_direct_report_name_key` and
`_is_duplicate_direct_report` (app.py lines 215-225). -/

/-- Python truthiness of a record value. -/
def pyTruthy : Value → Bool
  | .null => false
  | .str s => !s.isEmpty
  | .int n => n != 0
  | .bool b => b

/-- Python `(v or "")` in a string position: the string itself, `""` for a
falsy value, and `none` (an `AttributeError` on `.strip()`) for a truthy
non-string value. -/
def pyOrEmptyText (v : Value) : Option Str :=
  if pyTruthy v then
    match v with
    | .str s => some s
    | _ => none
  else some []

/-- `_direct_report_name_key`: lowercased stripped first name, a pipe
separator, lowercased stripped last name. -/
def directReportNameKey (r : Dict) : Option Str :=
  match pyOrEmptyText ((dGet r "first_name").getD .null),
      pyOrEmptyText ((dGet r "last_name").getD .null) with
  | some f, some l => some (pyLower (pyStrip f) ++ '|' :: pyLower (pyStrip l))
  | _, _ => none

/-- `_is_duplicate_direct_report`: true iff the key is non-empty and occurs
in the existing key set. -/
def isDuplicateDirectReport (data : Dict) (existingKeys : List Str) : Option Bool :=
  (directReportNameKey data).map (fun key => decide (key ≠ [] ∧ key ∈ existingKeys))

/-- C1 counterexample: two records whose first and last names are both blank
DO collide — the key is "|", which is never empty — whereas the claim demands
that both normalized name components be non-empty for a collision. -/
theorem isDuplicate_blank_cex :
    directReportNameKey [("first_name", strv ""), ("last_name", strv "")] =
      some ("|".toList) ∧
    isDuplicateDirectReport [("first_name", strv ""), ("last_name", strv "")]
      ["|".toList] = some true ∧
    pyLower (pyStrip ("".toList)) = [] := by
  decide

/-- C1 (amended): whenever the key computation succeeds on both records, the
duplicate check reports a collision iff the full normalized keys — lowercased
stripped first name, pipe, lowercased stripped last name — are equal; the key
contains the separator and is never empty, so records with blank names
collide as well. -/
theorem isDuplicate_iff_key_eq (A B : Dict) (kA kB : Str)
    (hA : directReportNameKey A = some kA) (hB : directReportNameKey B = some kB) :
    (isDuplicateDirectReport A [kB] = some true ↔ kA = kB) ∧ kA ≠ [] := by
  have hAne : kA ≠ [] := by
    unfold directReportNameKey at hA
    cases h1 : pyOrEmptyText ((dGet A "first_name").getD .null) with
    | none => rw [h1] at hA; simp at hA
    | some f =>
      cases h2 : pyOrEmptyText ((dGet A "last_name").getD .null) with
      | none => rw [h1, h2] at hA; simp at hA
      | some l =>
        rw [h1, h2] at hA
        simp only [Option.some_inj] at hA
        rw [← hA]
        simp
  refine ⟨?_, hAne⟩
  unfold isDuplicateDirectReport
  rw [hA]
  simp [hAne]

/-- C1 witness: case- and whitespace-variant spellings of the same name
collide; the key of " Ana"/"Lopez" equals that of "ana"/"LOPEZ". -/
theorem isDuplicate_iff_key_eq_witness :
    (isDuplicateDirectReport [("first_name", strv " Ana"), ("last_name", strv "Lopez")]
        ["ana|lopez".toList] = some true ↔
      ("ana|lopez".toList : Str) = "ana|lopez".toList) ∧
    ("ana|lopez".toList : Str) ≠ [] :=
  isDuplicate_iff_key_eq
    [("first_name", strv " Ana"), ("last_name", strv "Lopez")]
    [("first_name", strv "ana"), ("last_name", strv "LOPEZ")]
    ("ana|lopez".toList) ("ana|lopez".toList) (by decide) (by decide)

/-! Identifier assignment `_next_direct_report_id` (app.py lines 204-212) and
the add/delete operations (app.py lines 359-411). -/

/-- Python `int(x)` on a record value; `none` models `TypeError`/`ValueError`. -/
def pyToInt : Value → Option Int
  | .null => none
  | .str s => pyParseInt s
  | .int n => some n
  | .bool b => some (if b then 1 else 0)

/-- The id a record contributes to the max scan: `int(r.get("id") or 0)`,
with conversion failures skipped. -/
def validIdOf (r : Dict) : Option Int :=
  let v := (dGet r "id").getD .null
  pyToInt (if pyTruthy v then v else .int 0)

/-- One step of the max scan over the store. -/
def idScanStep (m : Int) (r : Dict) : Int :=
  match validIdOf r with
  | some n => max m n
  | none => m

/-- `_next_direct_report_id`: one more than the running max (from 0) of the
convertible ids. -/
def nextDirectReportId (rs : List Dict) : Int :=
  rs.foldl idScanStep 0 + 1

/-- The spec's formula: the maximum of all valid positive integer ids
(missing and non-numeric ids counting as 0). -/
def maxValidPositiveId (rs : List Dict) : Int :=
  ((rs.filterMap validIdOf).filter (fun n => 0 < n)).foldl max 0

/-- Python `==` between record values (with bool/int numeric equality). -/
def pyEq : Value → Value → Bool
  | .null, .null => true
  | .str a, .str b => a == b
  | .int a, .int b => a == b
  | .bool a, .bool b => a == b
  | .bool a, .int b => (if a then (1 : Int) else 0) == b
  | .int a, .bool b => a == (if b then (1 : Int) else 0)
  | _, _ => false

/-- The integer ids present in the store. -/
def idsOf (rs : List Dict) : List Int :=
  rs.filterMap fun r =>
    match dGet r "id" with
    | some (.int n) => some n
    | _ => none

/-- Operator inputs to `_add_direct_report`: the two required names and the
optional fields (already stripped; `none` is an skipped prompt). -/
structure AddInputs where
  first : Str
  last : Str
  street1 : Option Str := none
  street2 : Option Str := none
  city : Option Str := none
  stateName : Option Str := none
  zip : Option Str := none
  country : Option Str := none
  birthday : Option Str := none
  hireDate : Option Str := none
  currentRole : Option Str := none
  roleStart : Option Str := none
  partner : Option Str := none

/-- Python `x or None` for an optional text field. -/
def optValue : Option Str → Value
  | some s => .str s
  | none => .null

/-- `_add_direct_report`: build the normalized record with a fresh id and the
prompted fields, and append it. -/
def addDirectReport (rs : List Dict) (inp : AddInputs) : List Dict :=
  let first := if pyStrip inp.first = [] then "Unknown".toList else pyStrip inp.first
  let last := if pyStrip inp.last = [] then "Unknown".toList else pyStrip inp.last
  let report := normalizeDirectReport
    [("id", .int (nextDirectReportId rs)), ("first_name", .str first), ("last_name", .str last)]
  let report := dInsert report "street_address_1" (optValue inp.street1)
  let report := dInsert report "street_address_2" (optValue inp.street2)
  let report := dInsert report "city" (optValue inp.city)
  let report := dInsert report "state" (optValue inp.stateName)
  let report := dInsert report "zipcode" (optValue inp.zip)
  let report := dInsert report "country" (optValue inp.country)
  let report := dInsert report "birthday" (optValue inp.birthday)
  let report := dInsert report "hire_date" (optValue inp.hireDate)
  let report := dInsert report "current_role" (optValue inp.currentRole)
  let report := dInsert report "role_start_date" (optValue inp.roleStart)
  let report := dInsert report "partner_name" (optValue inp.partner)
  rs ++ [report]

/-- Remove the first record satisfying the predicate, if any. -/
def removeFirst (p : Dict → Bool) : List Dict → List Dict
  | [] => []
  | r :: rs => if p r then rs else r :: removeFirst p rs

/-- `_delete_direct_report`: parse the id, remove the first record whose id
equals it (Python `==`); blank or unparsable input leaves the store alone. -/
def deleteDirectReport (rs : List Dict) (raw : Str) : List Dict :=
  let t := pyStrip raw
  if t = [] then rs
  else
    match pyParseInt t with
    | none => rs
    | some tid => removeFirst (fun r => pyEq ((dGet r "id").getD .null) (.int tid)) rs

/-- A user-level mutation of the record store. -/
inductive StoreOp where
  | add (inp : AddInputs)
  | delete (raw : Str)

/-- Apply one operation. -/
def applyOp (rs : List Dict) : StoreOp → List Dict
  | .add inp => addDirectReport rs inp
  | .delete raw => deleteDirectReport rs raw

/-- Apply a sequence of operations starting from the empty store. -/
def applyOps (ops : List StoreOp) : List Dict := ops.foldl applyOp []

/-- The id invariant: every record carries a positive integer id, and the
ids are pairwise distinct. -/
def StoreInv (rs : List Dict) : Prop :=
  (∀ r ∈ rs, ∃ n : Int, dGet r "id" = some (.int n) ∧ 0 < n) ∧ (idsOf rs).Nodup

theorem idScan_acc_le (rs : List Dict) :
    ∀ acc : Int, acc ≤ rs.foldl idScanStep acc := by
  induction rs with
  | nil => intro acc; simp
  | cons r rs ih =>
    intro acc
    simp only [List.foldl_cons]
    refine le_trans ?_ (ih (idScanStep acc r))
    unfold idScanStep
    cases validIdOf r with
    | none => simp
    | some n => simp

theorem idScan_mem_le (rs : List Dict) :
    ∀ acc : Int, ∀ r ∈ rs, ∀ n : Int, validIdOf r = some n →
      n ≤ rs.foldl idScanStep acc := by
  induction rs with
  | nil => intro acc r hr; simp at hr
  | cons r0 rs ih =>
    intro acc r hr n hn
    simp only [List.foldl_cons]
    rcases List.mem_cons.mp hr with h | h
    · subst h
      refine le_trans ?_ (idScan_acc_le rs (idScanStep acc r))
      unfold idScanStep
      rw [hn]
      simp
    · exact ih (idScanStep acc r0) r h n hn

theorem validIdOf_int (r : Dict) (n : Int) (h : dGet r "id" = some (.int n)) :
    validIdOf r = some n := by
  unfold validIdOf
  rw [h]
  simp only [Option.getD_some]
  by_cases hz : n = 0
  · subst hz; rfl
  · have : pyTruthy (.int n) = true := by simp [pyTruthy, hz]
    rw [if_pos this]
    rfl

theorem nextId_pos (rs : List Dict) : 0 < nextDirectReportId rs := by
  unfold nextDirectReportId
  have := idScan_acc_le rs 0
  omega

theorem nextId_gt_valid (rs : List Dict) (r : Dict) (hr : r ∈ rs) (n : Int)
    (hn : validIdOf r = some n) : n < nextDirectReportId rs := by
  unfold nextDirectReportId
  have := idScan_mem_le rs 0 r hr n hn
  omega

theorem idScan_eq_filterMap (rs : List Dict) :
    ∀ acc : Int, rs.foldl idScanStep acc = (rs.filterMap validIdOf).foldl max acc := by
  induction rs with
  | nil => intro acc; rfl
  | cons r rs ih =>
    intro acc
    simp only [List.foldl_cons, List.filterMap_cons]
    cases h : validIdOf r with
    | none =>
      simp only [idScanStep, h]
      exact ih acc
    | some n =>
      simp only [idScanStep, h, List.foldl_cons]
      exact ih (max acc n)

theorem foldMax_filter_pos (l : List Int) :
    ∀ acc : Int, 0 ≤ acc →
      l.foldl max acc = (l.filter (fun n => 0 < n)).foldl max acc := by
  induction l with
  | nil => intro acc _; rfl
  | cons n l ih =>
    intro acc hacc
    simp only [List.foldl_cons, List.filter_cons]
    by_cases h : 0 < n
    · rw [if_pos (by simpa using h)]
      simp only [List.foldl_cons]
      exact ih (max acc n) (le_trans hacc (le_max_left acc n))
    · rw [if_neg (by simpa using h)]
      rw [max_eq_left (by omega)]
      exact ih acc hacc

theorem nextId_eq_spec (rs : List Dict) :
    nextDirectReportId rs = maxValidPositiveId rs + 1 := by
  unfold nextDirectReportId maxValidPositiveId
  rw [idScan_eq_filterMap rs 0, foldMax_filter_pos _ 0 le_rfl]

theorem nextId_unused (rs : List Dict) (r : Dict) (hr : r ∈ rs) :
    pyEq ((dGet r "id").getD .null) (.int (nextDirectReportId rs)) = false := by
  have hpos := nextId_pos rs
  cases hg : dGet r "id" with
  | none => simp [pyEq]
  | some v =>
    cases v with
    | null => simp [pyEq]
    | str s => simp [pyEq]
    | int n =>
      have hv := validIdOf_int r n hg
      have hlt := nextId_gt_valid rs r hr n hv
      simp only [Option.getD_some, pyEq]
      simp
      omega
    | bool b =>
      cases b with
      | false =>
        simp only [Option.getD_some, pyEq]
        simp
        omega
      | true =>
        have hv : validIdOf r = some 1 := by
          unfold validIdOf
          rw [hg]
          rfl
        have hlt := nextId_gt_valid rs r hr 1 hv
        simp only [Option.getD_some, pyEq]
        simp
        omega

theorem dGet_base_id (nid : Int) (f l : Str) :
    dGet [("id", Value.int nid), ("first_name", Value.str f), ("last_name", Value.str l)]
      "id" = some (Value.int nid) := rfl

theorem addReport_id (rs : List Dict) (inp : AddInputs) :
    ∃ rep : Dict, addDirectReport rs inp = rs ++ [rep] ∧
      dGet rep "id" = some (Value.int (nextDirectReportId rs)) := by
  unfold addDirectReport
  refine ⟨_, rfl, ?_⟩
  rw [dGet_dInsert_ne _ _ _ _ (by decide), dGet_dInsert_ne _ _ _ _ (by decide),
    dGet_dInsert_ne _ _ _ _ (by decide), dGet_dInsert_ne _ _ _ _ (by decide),
    dGet_dInsert_ne _ _ _ _ (by decide), dGet_dInsert_ne _ _ _ _ (by decide),
    dGet_dInsert_ne _ _ _ _ (by decide), dGet_dInsert_ne _ _ _ _ (by decide),
    dGet_dInsert_ne _ _ _ _ (by decide), dGet_dInsert_ne _ _ _ _ (by decide),
    dGet_dInsert_ne _ _ _ _ (by decide)]
  set f := if pyStrip inp.first = [] then "Unknown".toList else pyStrip inp.first
  set l := if pyStrip inp.last = [] then "Unknown".toList else pyStrip inp.last
  have hnd : NodupKeys [("id", Value.int (nextDirectReportId rs)),
      ("first_name", Value.str f), ("last_name", Value.str l)] := by
    unfold NodupKeys
    show (["id", "first_name", "last_name"] : List String).Nodup
    decide
  have hpre : ∀ kv ∈ [("id", Value.int (nextDirectReportId rs)),
      ("first_name", Value.str f), ("last_name", Value.str l)],
      keyMap kv.1 = "id" → kv.1 = "id" := by
    intro kv hkv
    rcases List.mem_cons.mp hkv with h | h
    · subst h; intro _; rfl
    · rcases List.mem_cons.mp h with h | h
      · subst h
        intro hc
        exact absurd hc (show ¬ keyMap "first_name" = "id" by decide)
      · rw [List.mem_singleton.mp h]
        intro hc
        exact absurd hc (show ¬ keyMap "last_name" = "id" by decide)
  unfold normalizeDirectReport fillOptional
  rw [foldOpt_get_ne _ _ _ (by decide),
    fillRequired_get_ne _ _ _ (by decide),
    fillRequired_get_ne _ _ _ (by decide),
    dGet_dMigrate _ "id" (by decide) hpre hnd]
  rfl

theorem removeFirst_sublist (p : Dict → Bool) (l : List Dict) :
    (removeFirst p l).Sublist l := by
  induction l with
  | nil => simp [removeFirst]
  | cons r l ih =>
    unfold removeFirst
    by_cases h : p r
    · rw [if_pos h]
      exact List.sublist_cons_self r l
    · rw [if_neg h]
      exact ih.cons₂ r

theorem idsOf_sublist (a b : List Dict) (h : a.Sublist b) : (idsOf a).Sublist (idsOf b) :=
  List.Sublist.filterMap _ h

theorem mem_idsOf (rs : List Dict) (n : Int) :
    n ∈ idsOf rs ↔ ∃ r ∈ rs, dGet r "id" = some (Value.int n) := by
  unfold idsOf
  rw [List.mem_filterMap]
  constructor
  · rintro ⟨r, hr, hmatch⟩
    refine ⟨r, hr, ?_⟩
    cases hg : dGet r "id" with
    | none => rw [hg] at hmatch; simp at hmatch
    | some v =>
      cases v <;> rw [hg] at hmatch <;> simp_all
  · rintro ⟨r, hr, hg⟩
    exact ⟨r, hr, by rw [hg]⟩

theorem storeInv_add (rs : List Dict) (inp : AddInputs) (h : StoreInv rs) :
    StoreInv (addDirectReport rs inp) := by
  obtain ⟨h1, h2⟩ := h
  obtain ⟨rep, heq, hid⟩ := addReport_id rs inp
  rw [heq]
  constructor
  · intro r hr
    rcases List.mem_append.mp hr with hm | hm
    · exact h1 r hm
    · rw [List.mem_singleton.mp hm]
      exact ⟨nextDirectReportId rs, hid, nextId_pos rs⟩
  · have hids : idsOf (rs ++ [rep]) = idsOf rs ++ [nextDirectReportId rs] := by
      unfold idsOf
      rw [List.filterMap_append]
      congr 1
      simp [hid]
    rw [hids]
    have hnotin : nextDirectReportId rs ∉ idsOf rs := by
      intro hc
      obtain ⟨r, hr, hg⟩ := (mem_idsOf rs _).mp hc
      have := nextId_gt_valid rs r hr _ (validIdOf_int r _ hg)
      omega
    simp [List.nodup_append, h2, hnotin]

theorem storeInv_delete (rs : List Dict) (raw : Str) (h : StoreInv rs) :
    StoreInv (deleteDirectReport rs raw) := by
  obtain ⟨h1, h2⟩ := h
  unfold deleteDirectReport
  by_cases hb : pyStrip raw = []
  · rw [if_pos hb]; exact ⟨h1, h2⟩
  · rw [if_neg hb]
    cases pyParseInt (pyStrip raw) with
    | none => exact ⟨h1, h2⟩
    | some tid =>
      have hsub := removeFirst_sublist
        (fun r => pyEq ((dGet r "id").getD .null) (.int tid)) rs
      exact ⟨fun r hr => h1 r (hsub.subset hr), (idsOf_sublist _ _ hsub).nodup h2⟩

theorem storeInv_applyOps (ops : List StoreOp) : StoreInv (applyOps ops) := by
  unfold applyOps
  have key : ∀ rs : List Dict, StoreInv rs → StoreInv (ops.foldl applyOp rs) := by
    induction ops with
    | nil => intro rs h; exact h
    | cons op ops ih =>
      intro rs h
      simp only [List.foldl_cons]
      apply ih
      cases op with
      | add inp => exact storeInv_add rs inp h
      | delete raw => exact storeInv_delete rs raw h
  exact key [] ⟨by simp, by simp [idsOf]⟩

/-- C7.  `_next_direct_report_id` returns one more than the maximum of the
valid positive integer ids (missing and non-numeric ids counting as 0), is
positive, is strictly greater than every convertible existing id, and is
unused (Python-equal to no stored id value); and every sequence of add and
delete operations from the empty store keeps all ids pairwise distinct
positive integers. -/
theorem nextDirectReportId_spec :
    (∀ rs : List Dict, nextDirectReportId rs = maxValidPositiveId rs + 1) ∧
    (∀ rs : List Dict, 0 < nextDirectReportId rs) ∧
    (∀ rs : List Dict, ∀ r ∈ rs, ∀ n : Int, validIdOf r = some n →
      n < nextDirectReportId rs) ∧
    (∀ rs : List Dict, ∀ r ∈ rs,
      pyEq ((dGet r "id").getD .null) (.int (nextDirectReportId rs)) = false) ∧
    (∀ ops : List StoreOp, StoreInv (applyOps ops)) :=
  ⟨nextId_eq_spec, nextId_pos,
    fun rs r hr n hn => nextId_gt_valid rs r hr n hn,
    nextId_unused, storeInv_applyOps⟩

/-- C7 witness: in a store with ids 7 and the junk id "x", the next id
exceeds 7, and the formula gives 8. -/
theorem nextDirectReportId_spec_witness :
    (7 : Int) < nextDirectReportId [[("id", Value.int 7)], [("id", strv "x")]] ∧
    nextDirectReportId [[("id", Value.int 7)], [("id", strv "x")]] =
      maxValidPositiveId [[("id", Value.int 7)], [("id", strv "x")]] + 1 :=
  ⟨nextDirectReportId_spec.2.2.1 _ [("id", Value.int 7)] (by decide) 7 (by decide),
    nextDirectReportId_spec.1 _⟩

/-! AI bulk generation `_generate_direct_reports_with_ai`, candidate loop
(app.py lines 498-522). -/

/-- The message printed when a duplicate candidate is skipped. -/
def skipMessage (fn ln : Str) : Str :=
  "  Skipped duplicate: ".toList ++ fn ++ ' ' :: ln

/-- The stripped first name used in the skip message:
`(data.get("first_name") or "").strip()` before stripping. -/
def candFirst (data : Dict) : Str :=
  (pyOrEmptyText ((dGet data "first_name").getD .null)).getD []

/-- The stripped last name analogue of `candFirst`. -/
def candLast (data : Dict) : Str :=
  (pyOrEmptyText ((dGet data "last_name").getD .null)).getD []

/-- Python `{"id": next_id, **data}`. -/
def withFreshId (rs : List Dict) (data : Dict) : Dict :=
  data.foldl (fun d kv => dInsert d kv.1 kv.2)
    [("id", Value.int (nextDirectReportId rs))]

/-- State of the candidate loop: the store, the key set
`keys_already_used`, the printed skip messages, and `added_count`. -/
structure GenState where
  store : List Dict
  keys : List Str
  skips : List Str
  addedCount : Nat
deriving DecidableEq

/-- One candidate of the loop body: skip and report a duplicate, otherwise
normalize with a fresh id, append, and record the new key.  `none` models the
uncaught exception raised by the key computation on a malformed name, which
aborts the remaining candidates. -/
def processCandidate (st : GenState) (data : Dict) : Option GenState :=
  match isDuplicateDirectReport data st.keys with
  | none => none
  | some true =>
    match pyOrEmptyText ((dGet data "first_name").getD .null),
        pyOrEmptyText ((dGet data "last_name").getD .null) with
    | some f, some l =>
      some { st with skips := st.skips ++ [skipMessage (pyStrip f) (pyStrip l)] }
    | _, _ => none
  | some false =>
    let report := normalizeDirectReport (withFreshId st.store data)
    match directReportNameKey report with
    | some k =>
      some ⟨st.store ++ [report], st.keys ++ [k], st.skips, st.addedCount + 1⟩
    | none => none

/-- The candidate loop; the flag records whether it aborted on an exception. -/
def processCandidates : GenState → List Dict → GenState × Bool
  | st, [] => (st, false)
  | st, data :: rest =>
    match processCandidate st data with
    | some st' => processCandidates st' rest
    | none => (st, true)

/-- `existing_names = {_direct_report_name_key(r) for r in direct_reports}`. -/
def existingKeys (rs : List Dict) : List Str := rs.filterMap directReportNameKey

/-- The candidate phase of `_generate_direct_reports_with_ai`, given the
parsed candidate objects. -/
def generateDirectReports (store : List Dict) (cands : List Dict) : GenState × Bool :=
  processCandidates ⟨store, existingKeys store, [], 0⟩ cands

/-- A value on which `(v or "").strip()` does not raise. -/
def TextOk (v : Value) : Prop := (pyOrEmptyText v).isSome = true

/-- A well-formed candidate: its name-carrying fields (canonical or legacy)
hold text-safe values and it carries no id of its own. -/
def WfCand (data : Dict) : Prop :=
  (∀ kv ∈ data, (keyMap kv.1 = "first_name" ∨ keyMap kv.1 = "last_name") →
    TextOk kv.2) ∧
  dGet data "id" = none

/-- The concrete existing record of the duplicate-skip scenario. -/
def anaRecord : Dict :=
  normalizeDirectReport
    [("id", Value.int 1), ("first_name", strv "Ana"), ("last_name", strv "Lopez")]

/-- The colliding candidate of the scenario. -/
def anaCand : Dict := [("first_name", strv "Ana"), ("last_name", strv "Lopez")]

/-- The fresh candidate of the scenario. -/
def betoCand : Dict := [("first_name", strv "Beto"), ("last_name", strv "Cruz")]

theorem dGet_mem (d : Dict) (k : String) (v : Value) (h : dGet d k = some v) :
    (k, v) ∈ d := by
  induction d with
  | nil => simp [dGet] at h
  | cons kv d ih =>
    obtain ⟨k1, v1⟩ := kv
    simp only [dGet] at h
    by_cases h1 : k1 = k
    · rw [if_pos h1] at h
      simp only [Option.some_inj] at h
      subst h1
      subst h
      exact List.mem_cons_self _ _
    · rw [if_neg h1] at h
      exact List.mem_cons_of_mem _ (ih h)

theorem mem_imp_dMem (d : Dict) (k : String) (v : Value) (h : (k, v) ∈ d) :
    dMem d k = true := by
  induction d with
  | nil => simp at h
  | cons kv d ih =>
    obtain ⟨k1, v1⟩ := kv
    rcases List.mem_cons.mp h with h1 | h1
    · injection h1 with ha hb
      simp [dMem, dGet, ha]
    · unfold dMem dGet
      by_cases h2 : k1 = k
      · simp [h2]
      · simp only [h2, if_false]
        exact ih h1

theorem directReportNameKey_eq (data : Dict) (f l : Str)
    (hf : pyOrEmptyText ((dGet data "first_name").getD .null) = some f)
    (hl : pyOrEmptyText ((dGet data "last_name").getD .null) = some l) :
    directReportNameKey data = some (pyLower (pyStrip f) ++ '|' :: pyLower (pyStrip l)) := by
  unfold directReportNameKey
  rw [hf, hl]

theorem directReportNameKey_ne_nil (data : Dict) (k : Str)
    (h : directReportNameKey data = some k) : k ≠ [] := by
  unfold directReportNameKey at h
  cases h1 : pyOrEmptyText ((dGet data "first_name").getD .null) with
  | none => rw [h1] at h; simp at h
  | some f =>
    cases h2 : pyOrEmptyText ((dGet data "last_name").getD .null) with
    | none => rw [h1, h2] at h; simp at h
    | some l =>
      rw [h1, h2] at h
      simp only [Option.some_inj] at h
      rw [← h]
      simp

theorem wf_textOk_get (data : Dict) (h : WfCand data) (k : String)
    (hk : keyMap k = k ∧ (k = "first_name" ∨ k = "last_name")) :
    TextOk ((dGet data k).getD .null) := by
  cases hg : dGet data k with
  | none => simp [TextOk, pyOrEmptyText, pyTruthy]
  | some v =>
    simp only [Option.getD_some]
    apply h.1 (k, v) (dGet_mem data k v hg)
    rcases hk.2 with h2 | h2 <;> rw [h2] at hk ⊢
    · exact Or.inl hk.1
    · exact Or.inr hk.1

theorem wf_nameKey_isSome (data : Dict) (h : WfCand data) :
    ∃ k, directReportNameKey data = some k := by
  have hf := wf_textOk_get data h "first_name" ⟨by decide, Or.inl rfl⟩
  have hl := wf_textOk_get data h "last_name" ⟨by decide, Or.inr rfl⟩
  unfold TextOk at hf hl
  rw [Option.isSome_iff_exists] at hf hl
  obtain ⟨f, hf⟩ := hf
  obtain ⟨l, hl⟩ := hl
  exact ⟨_, directReportNameKey_eq data f l hf hl⟩

theorem mem_dInsert (d : Dict) (k : String) (v : Value) (kv : String × Value)
    (h : kv ∈ dInsert d k v) : kv = (k, v) ∨ kv ∈ d := by
  induction d with
  | nil => simp [dInsert] at h; exact Or.inl h
  | cons p d ih =>
    obtain ⟨k1, v1⟩ := p
    simp only [dInsert] at h
    by_cases h1 : k1 = k
    · rw [if_pos h1] at h
      rcases List.mem_cons.mp h with h2 | h2
      · subst h1; exact Or.inl h2
      · exact Or.inr (List.mem_cons_of_mem _ h2)
    · rw [if_neg h1] at h
      rcases List.mem_cons.mp h with h2 | h2
      · exact Or.inr (h2 ▸ List.mem_cons_self _ _)
      · rcases ih h2 with h3 | h3
        · exact Or.inl h3
        · exact Or.inr (List.mem_cons_of_mem _ h3)

theorem mem_foldInsertPlain (l : List (String × Value)) :
    ∀ (acc : Dict) (kv : String × Value),
      kv ∈ l.foldl (fun d p => dInsert d p.1 p.2) acc → kv ∈ acc ∨ kv ∈ l := by
  induction l with
  | nil => intro acc kv h; exact Or.inl h
  | cons p l ih =>
    intro acc kv h
    simp only [List.foldl_cons] at h
    rcases ih _ kv h with h1 | h1
    · rcases mem_dInsert acc p.1 p.2 kv h1 with h2 | h2
      · exact Or.inr (h2 ▸ List.mem_cons_self _ _)
      · exact Or.inl h2
    · exact Or.inr (List.mem_cons_of_mem _ h1)

theorem foldPlain_get_ne (l : List (String × Value)) :
    ∀ (acc : Dict) (k : String), (∀ p ∈ l, ¬ p.1 = k) →
      dGet (l.foldl (fun d p => dInsert d p.1 p.2) acc) k = dGet acc k := by
  induction l with
  | nil => intro acc k _; rfl
  | cons p l ih =>
    intro acc k h
    simp only [List.foldl_cons]
    rw [ih _ k (fun q hq => h q (List.mem_cons_of_mem p hq))]
    rw [dGet_dInsert_ne acc p.1 k p.2 (by
      intro hc
      exact h p (List.mem_cons_self p l) hc.symm)]

theorem foldPlain_nodup (l : List (String × Value)) :
    ∀ acc : Dict, NodupKeys acc →
      NodupKeys (l.foldl (fun d p => dInsert d p.1 p.2) acc) := by
  induction l with
  | nil => intro acc h; exact h
  | cons p l ih =>
    intro acc h
    exact ih _ (dInsert_nodup acc p.1 p.2 h)

theorem withFreshId_id (rs : List Dict) (data : Dict) (hid : dGet data "id" = none) :
    dGet (withFreshId rs data) "id" = some (Value.int (nextDirectReportId rs)) := by
  unfold withFreshId
  rw [foldPlain_get_ne data _ "id" (by
    intro p hp hc
    obtain ⟨k1, v1⟩ := p
    simp only at hc
    subst hc
    have := mem_imp_dMem data "id" v1 hp
    rw [dMem, hid] at this
    simp at this)]
  rfl

theorem keyMap_preimage_id (k' : String) (h : keyMap k' = "id") : k' = "id" := by
  rcases keyMap_preimage k' "id" h with h1 | h1
  · exact h1
  · exact absurd h1 (by decide)

theorem report_id (rs : List Dict) (data : Dict) (hid : dGet data "id" = none) :
    dGet (normalizeDirectReport (withFreshId rs data)) "id" =
      some (Value.int (nextDirectReportId rs)) := by
  have hnd : NodupKeys (withFreshId rs data) :=
    foldPlain_nodup data _ (by unfold NodupKeys; show ((["id"] : List String)).Nodup; decide)
  have hpre : ∀ kv ∈ withFreshId rs data, keyMap kv.1 = "id" → kv.1 = "id" :=
    fun kv _ h => keyMap_preimage_id kv.1 h
  unfold normalizeDirectReport fillOptional
  rw [foldOpt_get_ne _ _ _ (by decide),
    fillRequired_get_ne _ _ _ (by decide),
    fillRequired_get_ne _ _ _ (by decide),
    dGet_dMigrate _ "id" (by decide) hpre hnd,
    withFreshId_id rs data hid]

theorem fillRequired_get_cases (d : Dict) (k : String) :
    dGet (fillRequired d k) k = some (.str []) ∨
      (∃ v, dGet d k = some v ∧ dGet (fillRequired d k) k = some v) := by
  unfold fillRequired
  cases hg : dGet d k with
  | none => exact Or.inl (dGet_dInsert_self d k _)
  | some v =>
    cases v with
    | null => exact Or.inl (dGet_dInsert_self d k _)
    | str s => exact Or.inr ⟨.str s, rfl, hg⟩
    | int n => exact Or.inr ⟨.int n, rfl, hg⟩
    | bool b => exact Or.inr ⟨.bool b, rfl, hg⟩

theorem dGet_foldInsert_mem (l : List (String × Value)) (k : String) :
    ∀ (acc : Dict) (v : Value),
      dGet (l.foldl (fun out kv => dInsert out (keyMap kv.1) kv.2) acc) k = some v →
      (∃ p ∈ l, keyMap p.1 = k ∧ p.2 = v) ∨ dGet acc k = some v := by
  induction l with
  | nil => intro acc v h; exact Or.inr h
  | cons p l ih =>
    intro acc v h
    simp only [List.foldl_cons] at h
    rcases ih _ v h with h1 | h1
    · obtain ⟨q, hq, hq2⟩ := h1
      exact Or.inl ⟨q, List.mem_cons_of_mem p hq, hq2⟩
    · by_cases h2 : keyMap p.1 = k
      · rw [h2, dGet_dInsert_self] at h1
        simp only [Option.some_inj] at h1
        exact Or.inl ⟨p, List.mem_cons_self p l, h2, h1⟩
      · rw [dGet_dInsert_ne acc _ k p.2 (by intro hc; exact h2 hc.symm)] at h1
        exact Or.inr h1

theorem migrate_withFreshId_textOk (rs : List Dict) (data : Dict) (h : WfCand data)
    (k : String) (hk : k = "first_name" ∨ k = "last_name") (v : Value)
    (hv : dGet (dMigrate (withFreshId rs data)) k = some v) : TextOk v := by
  unfold dMigrate at hv
  rcases dGet_foldInsert_mem _ k _ v hv with h1 | h1
  · obtain ⟨p, hp, hpk, hpv⟩ := h1
    rcases mem_foldInsertPlain data _ p hp with h2 | h2
    · rw [List.mem_singleton] at h2
      subst h2
      simp only at hpk
      exfalso
      rcases hk with hk | hk <;> rw [hk] at hpk <;> exact absurd hpk (by decide)
    · rw [← hpv]
      apply h.1 p h2
      rcases hk with hk | hk
      · exact Or.inl (hk ▸ hpk)
      · exact Or.inr (hk ▸ hpk)
  · simp [dGet] at h1

theorem report_nameKey_isSome (rs : List Dict) (data : Dict) (h : WfCand data) :
    ∃ k, directReportNameKey (normalizeDirectReport (withFreshId rs data)) = some k := by
  set M := dMigrate (withFreshId rs data) with hM
  have hfn : TextOk ((dGet (normalizeDirectReport (withFreshId rs data))
      "first_name").getD .null) := by
    unfold normalizeDirectReport fillOptional
    rw [foldOpt_get_ne _ _ _ (by decide), fillRequired_get_ne _ _ _ (by decide)]
    rcases fillRequired_get_cases M "first_name" with hc | ⟨v, hv, hv2⟩
    · rw [← hM, hc]; rfl
    · rw [← hM, hv2]
      exact migrate_withFreshId_textOk rs data h "first_name" (Or.inl rfl) v hv
  have hln : TextOk ((dGet (normalizeDirectReport (withFreshId rs data))
      "last_name").getD .null) := by
    unfold normalizeDirectReport fillOptional
    rw [foldOpt_get_ne _ _ _ (by decide)]
    rcases fillRequired_get_cases (fillRequired M "first_name") "last_name" with hc | ⟨v, hv, hv2⟩
    · rw [← hM, hc]; rfl
    · rw [← hM, hv2]
      rw [fillRequired_get_ne _ _ _ (by decide)] at hv
      exact migrate_withFreshId_textOk rs data h "last_name" (Or.inr rfl) v hv
  unfold TextOk at hfn hln
  rw [Option.isSome_iff_exists] at hfn hln
  obtain ⟨f, hf⟩ := hfn
  obtain ⟨l, hl⟩ := hln
  exact ⟨_, directReportNameKey_eq _ f l hf hl⟩

set_option maxHeartbeats 2000000 in
theorem processCandidates_props (cands : List Dict) :
    ∀ st : GenState, (∀ d ∈ cands, WfCand d) →
      ∃ added newSkips,
        processCandidates st cands =
          (⟨st.store ++ added, st.keys ++ added.filterMap directReportNameKey,
            st.skips ++ newSkips, st.addedCount + added.length⟩, false) ∧
        added.length + newSkips.length = cands.length ∧
        (∀ d ∈ cands, (directReportNameKey d).getD [] ∈ st.keys →
          skipMessage (pyStrip (candFirst d)) (pyStrip (candLast d)) ∈ newSkips) ∧
        (∀ rep ∈ added, ∃ n : Int, dGet rep "id" = some (.int n) ∧ 0 < n ∧
          ∀ m ∈ idsOf st.store, m < n) := by
  induction cands with
  | nil =>
    intro st _
    refine ⟨[], [], ?_, by simp, by simp, by simp⟩
    simp [processCandidates]
  | cons data rest ih =>
    intro st hwf
    have hwfd : WfCand data := hwf data (List.mem_cons_self _ _)
    have hwfr : ∀ d ∈ rest, WfCand d := fun d hd => hwf d (List.mem_cons_of_mem _ hd)
    obtain ⟨kd, hkd⟩ := wf_nameKey_isSome data hwfd
    have hkdne := directReportNameKey_ne_nil data kd hkd
    have hf : ∃ f, pyOrEmptyText ((dGet data "first_name").getD .null) = some f := by
      have := wf_textOk_get data hwfd "first_name" ⟨by decide, Or.inl rfl⟩
      unfold TextOk at this
      rwa [Option.isSome_iff_exists] at this
    have hl : ∃ l, pyOrEmptyText ((dGet data "last_name").getD .null) = some l := by
      have := wf_textOk_get data hwfd "last_name" ⟨by decide, Or.inr rfl⟩
      unfold TextOk at this
      rwa [Option.isSome_iff_exists] at this
    obtain ⟨f, hf⟩ := hf
    obtain ⟨l, hl⟩ := hl
    by_cases hmem : kd ∈ st.keys
    · have hstep : processCandidate st data = some
          ⟨st.store, st.keys, st.skips ++ [skipMessage (pyStrip f) (pyStrip l)],
            st.addedCount⟩ := by
        unfold processCandidate
        rw [show isDuplicateDirectReport data st.keys = some true from by
          unfold isDuplicateDirectReport
          rw [hkd]
          simp [hkdne, hmem]]
        rw [hf, hl]
      have hred : processCandidates st (data :: rest) = processCandidates
          ⟨st.store, st.keys, st.skips ++ [skipMessage (pyStrip f) (pyStrip l)],
            st.addedCount⟩ rest := by
        simp only [processCandidates]
        rw [hstep]
      obtain ⟨added, newSkips, heq, hlen, hskips, hids⟩ :=
        ih ⟨st.store, st.keys, st.skips ++ [skipMessage (pyStrip f) (pyStrip l)],
          st.addedCount⟩ hwfr
      refine ⟨added, skipMessage (pyStrip f) (pyStrip l) :: newSkips, ?_, ?_, ?_, ?_⟩
      · rw [hred, heq]
        simp [List.append_assoc]
      · simp only [List.length_cons]
        omega
      · intro d hd hdk
        rcases List.mem_cons.mp hd with hd1 | hd1
        · subst hd1
          have : candFirst d = f := by unfold candFirst; rw [hf]; rfl
          have h2 : candLast d = l := by unfold candLast; rw [hl]; rfl
          rw [this, h2]
          exact List.mem_cons_self _ _
        · exact List.mem_cons_of_mem _ (hskips d hd1 hdk)
      · exact hids
    · obtain ⟨krep, hkrep⟩ := report_nameKey_isSome st.store data hwfd
      have hstep : processCandidate st data = some
          ⟨st.store ++ [normalizeDirectReport (withFreshId st.store data)],
            st.keys ++ [krep], st.skips, st.addedCount + 1⟩ := by
        unfold processCandidate
        rw [show isDuplicateDirectReport data st.keys = some false from by
          unfold isDuplicateDirectReport
          rw [hkd]
          simp [hmem]]
        simp only
        rw [hkrep]
      have hred : processCandidates st (data :: rest) = processCandidates
          ⟨st.store ++ [normalizeDirectReport (withFreshId st.store data)],
            st.keys ++ [krep], st.skips, st.addedCount + 1⟩ rest := by
        simp only [processCandidates]
        rw [hstep]
      obtain ⟨added, newSkips, heq, hlen, hskips, hids⟩ :=
        ih ⟨st.store ++ [normalizeDirectReport (withFreshId st.store data)],
          st.keys ++ [krep], st.skips, st.addedCount + 1⟩ hwfr
      refine ⟨normalizeDirectReport (withFreshId st.store data) :: added, newSkips,
        ?_, ?_, ?_, ?_⟩
      · rw [hred, heq]
        simp [List.filterMap_cons, hkrep, List.append_assoc, Nat.add_comm,
          Nat.add_assoc, Nat.add_left_comm]
      · simp only [List.length_cons]
        omega
      · intro d hd hdk
        rcases List.mem_cons.mp hd with hd1 | hd1
        · subst hd1
          rw [hkd] at hdk
          exact absurd hdk hmem
        · exact hskips d hd1 (List.mem_append_left _ hdk)
      · intro rep hrep
        rcases List.mem_cons.mp hrep with hr1 | hr1
        · subst hr1
          refine ⟨nextDirectReportId st.store, report_id st.store data hwfd.2,
            nextId_pos st.store, ?_⟩
          intro m hm
          obtain ⟨r, hr, hg⟩ := (mem_idsOf st.store m).mp hm
          exact nextId_gt_valid st.store r hr m (validIdOf_int r m hg)
        · obtain ⟨n, hg, hpos, hall⟩ := hids rep hr1
          refine ⟨n, hg, hpos, ?_⟩
          intro m hm
          apply hall m
          simp only [idsOf, List.filterMap_append]
          exact List.mem_append_left _ hm

instance (data : Dict) : Decidable (WfCand data) := by
  unfold WfCand TextOk
  infer_instance

/-- C2.  The bulk-generation candidate loop: for well-formed candidates
(text-safe names, no id of their own), the run never aborts, the store grows
by exactly the accepted candidates in order, the key set grows by their
normalized keys, the added count matches, every candidate splits into
accepted or skipped, every candidate colliding with a pre-existing key gets a
skip message naming its stripped first and last name, and every appended
record carries a fresh positive integer id greater than every id of the
original store.  In particular, with Ana Lopez in the store and candidates
Ana Lopez and Beto Cruz, only Beto Cruz (with fresh id 2) is appended and the
skip message names Ana Lopez; and a candidate duplicated inside one batch is
skipped against the keys added earlier in the same batch. -/
theorem generateDirectReports_spec :
    (∀ (store : List Dict) (cands : List Dict), (∀ d ∈ cands, WfCand d) →
      ∃ added newSkips,
        generateDirectReports store cands =
          (⟨store ++ added, existingKeys store ++ added.filterMap directReportNameKey,
            newSkips, added.length⟩, false) ∧
        added.length + newSkips.length = cands.length ∧
        (∀ d ∈ cands, (directReportNameKey d).getD [] ∈ existingKeys store →
          skipMessage (pyStrip (candFirst d)) (pyStrip (candLast d)) ∈ newSkips) ∧
        (∀ rep ∈ added, ∃ n : Int, dGet rep "id" = some (.int n) ∧ 0 < n ∧
          ∀ m ∈ idsOf store, m < n)) ∧
    ((generateDirectReports [anaRecord] [anaCand, betoCand]).2 = false ∧
      (generateDirectReports [anaRecord] [anaCand, betoCand]).1.store =
        [anaRecord, normalizeDirectReport (withFreshId [anaRecord] betoCand)] ∧
      (generateDirectReports [anaRecord] [anaCand, betoCand]).1.skips =
        [skipMessage ("Ana".toList) ("Lopez".toList)] ∧
      (generateDirectReports [anaRecord] [anaCand, betoCand]).1.addedCount = 1 ∧
      dGet (normalizeDirectReport (withFreshId [anaRecord] betoCand)) "id" =
        some (Value.int 2)) ∧
    ((generateDirectReports [] [betoCand, betoCand]).1.addedCount = 1 ∧
      (generateDirectReports [] [betoCand, betoCand]).1.skips =
        [skipMessage ("Beto".toList) ("Cruz".toList)]) := by
  refine ⟨?_, by decide, by decide⟩
  intro store cands hwf
  obtain ⟨added, newSkips, heq, hlen, hskips, hids⟩ :=
    processCandidates_props cands ⟨store, existingKeys store, [], 0⟩ hwf
  refine ⟨added, newSkips, ?_, hlen, hskips, hids⟩
  unfold generateDirectReports
  rw [heq]
  simp

/-- C2 witness: the general part applied to the Ana/Beto scenario inputs. -/
theorem generateDirectReports_spec_witness :
    (generateDirectReports [anaRecord] [anaCand, betoCand]).2 = false := by
  obtain ⟨added, newSkips, heq, h1, h2, h3⟩ :=
    generateDirectReports_spec.1 [anaRecord] [anaCand, betoCand] (by decide)
  rw [heq]

/-! The management-tip store and `_generate_management_tip_with_ai`
(app.py lines 599-689). -/

/-- A dated management tip. -/
structure Tip where
  date : Str
  text : Str
deriving DecidableEq

/-- `_normalize_tip_for_comparison`: lowercase, collapse whitespace runs to
single spaces, no surrounding space. -/
def normalizeTipForComparison (tip : Str) : Str :=
  joinSpace (pyWords (pyLower tip))

/-- `_is_duplicate_management_tip`. -/
def isDuplicateManagementTip (tips : List Tip) (text : Str) : Bool :=
  if text = [] then false
  else tips.any fun e =>
    normalizeTipForComparison e.text == normalizeTipForComparison text

/-- `_get_latest_management_tip`: the last entry's text or the placeholder. -/
def getLatestManagementTip (tips : List Tip) : Str :=
  match tips.getLast? with
  | some e => e.text
  | none => "No tip yet. Generate one from Mistral AI.".toList

/-- The refresh condition of `_load_management_tips`: no tips yet or the last
entry is not dated today. -/
def needsRefreshTips (tips : List Tip) (today : Str) : Bool :=
  match tips.getLast? with
  | none => true
  | some e => !(e.date == today)

/-- The attempt loop of `_generate_management_tip_with_ai`: `i` counts the
adapter requests made so far, `fuel` the remaining attempts; the adapter is a
function from the attempt index to the returned text. -/
def tipAttemptLoop (today : Str) (tips : List Tip) (resp : Nat → Str) :
    Nat → Nat → List Tip × Bool × Nat
  | i, 0 => (tips, false, i)
  | i, fuel + 1 =>
    let text := pyStrip (resp i)
    if text = [] then tipAttemptLoop today tips resp (i + 1) fuel
    else if isDuplicateManagementTip tips text then
      tipAttemptLoop today tips resp (i + 1) fuel
    else (tips ++ [⟨today, text⟩], true, i + 1)

/-- `_generate_management_tip_with_ai` with `max_attempts = 5`; the result is
the new tip list, the success flag, and the number of adapter requests. -/
def generateManagementTipWithAI (today : Str) (tips : List Tip) (resp : Nat → Str) :
    List Tip × Bool × Nat :=
  tipAttemptLoop today tips resp 0 5

/-- Attempt `i` yields a usable tip: non-empty after stripping and not a
duplicate of an existing tip. -/
def TipOk (tips : List Tip) (resp : Nat → Str) (i : Nat) : Prop :=
  pyStrip (resp i) ≠ [] ∧ isDuplicateManagementTip tips (pyStrip (resp i)) = false

instance (tips : List Tip) (resp : Nat → Str) (i : Nat) :
    Decidable (TipOk tips resp i) := by
  unfold TipOk
  infer_instance

theorem tipAttemptLoop_spec (today : Str) (tips : List Tip) (resp : Nat → Str) :
    ∀ (fuel i : Nat),
      ((∀ j, i ≤ j → j < i + fuel → ¬ TipOk tips resp j) →
        tipAttemptLoop today tips resp i fuel = (tips, false, i + fuel)) ∧
      (∀ j, i ≤ j → j < i + fuel → TipOk tips resp j →
        ∃ jm, i ≤ jm ∧ jm < i + fuel ∧ TipOk tips resp jm ∧
          (∀ k, i ≤ k → k < jm → ¬ TipOk tips resp k) ∧
          tipAttemptLoop today tips resp i fuel =
            (tips ++ [⟨today, pyStrip (resp jm)⟩], true, jm + 1)) := by
  intro fuel
  induction fuel with
  | zero =>
    intro i
    refine ⟨fun _ => by simp [tipAttemptLoop], ?_⟩
    intro j hj1 hj2
    omega
  | succ fuel ih =>
    intro i
    by_cases hoki : TipOk tips resp i
    · have hres : tipAttemptLoop today tips resp i (fuel + 1) =
          (tips ++ [⟨today, pyStrip (resp i)⟩], true, i + 1) := by
        unfold tipAttemptLoop
        rw [if_neg hoki.1, if_neg (by rw [hoki.2]; simp)]
      refine ⟨fun h => absurd hoki (h i le_rfl (by omega)), ?_⟩
      intro j hj1 hj2 hjok
      exact ⟨i, le_rfl, by omega, hoki, fun k hk1 hk2 => by omega, hres⟩
    · have hred : tipAttemptLoop today tips resp i (fuel + 1) =
          tipAttemptLoop today tips resp (i + 1) fuel := by
        conv_lhs => unfold tipAttemptLoop
        by_cases htext : pyStrip (resp i) = []
        · rw [if_pos htext]
        · rw [if_neg htext, if_pos (by
            unfold TipOk at hoki
            push_neg at hoki
            have := hoki htext
            revert this
            cases isDuplicateManagementTip tips (pyStrip (resp i)) <;> simp)]
      constructor
      · intro h
        rw [hred, (ih (i + 1)).1 (fun j hj1 hj2 => h j (by omega) (by omega))]
        have : i + 1 + fuel = i + (fuel + 1) := by omega
        rw [this]
      · intro j hj1 hj2 hjok
        have hjne : j ≠ i := fun hc => hoki (hc ▸ hjok)
        obtain ⟨jm, hm1, hm2, hm3, hm4, hm5⟩ :=
          (ih (i + 1)).2 j (by omega) (by omega) hjok
        refine ⟨jm, by omega, by omega, hm3, ?_, by rw [hred]; exact hm5⟩
        intro k hk1 hk2
        rcases Nat.eq_or_lt_of_le hk1 with hk | hk
        · rw [← hk]; exact hoki
        · exact hm4 k (by omega) hk2

/-- C8.  `generateDaily` makes at most 5 adapter requests; on the first
non-empty, non-duplicate response it appends exactly one entry dated today
and reports success, after which the latest tip is that text and the
same-day refresh check is false; if every attempt yields empty or duplicate
text it reports failure with the tip list unchanged. -/
theorem generateManagementTip_spec (today : Str) (tips : List Tip) (resp : Nat → Str) :
    (generateManagementTipWithAI today tips resp).2.2 ≤ 5 ∧
    ((∃ i, i < 5 ∧ TipOk tips resp i) →
      ∃ i, i < 5 ∧ TipOk tips resp i ∧ (∀ k, k < i → ¬ TipOk tips resp k) ∧
        generateManagementTipWithAI today tips resp =
          (tips ++ [⟨today, pyStrip (resp i)⟩], true, i + 1) ∧
        getLatestManagementTip (tips ++ [⟨today, pyStrip (resp i)⟩]) =
          pyStrip (resp i) ∧
        needsRefreshTips (tips ++ [⟨today, pyStrip (resp i)⟩]) today = false) ∧
    ((∀ i, i < 5 → ¬ TipOk tips resp i) →
      generateManagementTipWithAI today tips resp = (tips, false, 5)) := by
  have hspec := tipAttemptLoop_spec today tips resp 5 0
  have hfail : (∀ i, i < 5 → ¬ TipOk tips resp i) →
      generateManagementTipWithAI today tips resp = (tips, false, 5) := by
    intro h
    unfold generateManagementTipWithAI
    rw [hspec.1 (fun j _ hj2 => h j (by omega))]
  have hsucc : (∃ i, i < 5 ∧ TipOk tips resp i) →
      ∃ i, i < 5 ∧ TipOk tips resp i ∧ (∀ k, k < i → ¬ TipOk tips resp k) ∧
        generateManagementTipWithAI today tips resp =
          (tips ++ [⟨today, pyStrip (resp i)⟩], true, i + 1) ∧
        getLatestManagementTip (tips ++ [⟨today, pyStrip (resp i)⟩]) =
          pyStrip (resp i) ∧
        needsRefreshTips (tips ++ [⟨today, pyStrip (resp i)⟩]) today = false := by
    rintro ⟨j, hj5, hjok⟩
    obtain ⟨jm, _, hm2, hm3, hm4, hm5⟩ := hspec.2 j (by omega) (by omega) hjok
    refine ⟨jm, by omega, hm3, fun k hk => hm4 k (by omega) hk, hm5, ?_, ?_⟩
    · unfold getLatestManagementTip
      rw [List.getLast?_concat]
    · unfold needsRefreshTips
      rw [List.getLast?_concat]
      simp
  refine ⟨?_, hsucc, hfail⟩
  by_cases hex : ∃ i, i < 5 ∧ TipOk tips resp i
  · obtain ⟨i, _, _, _, heq, _, _⟩ := hsucc hex
    rw [heq]
    simp only
    omega
  · push_neg at hex
    rw [hfail (fun i hi => hex i hi)]

/-- C8 witness: on an empty store, the sample tip is accepted on the first
attempt, appended dated today, and the request count is 1. -/
theorem generateManagementTip_spec_witness :
    generateManagementTipWithAI ("2026-10-12".toList) []
        (fun _ => "Ask one clarifying question before reacting.".toList) =
      ([⟨"2026-10-12".toList,
          "Ask one clarifying question before reacting.".toList⟩], true, 1) := by
  obtain ⟨i, hi5, hok, hmin, heq, hlatest, hrefresh⟩ :=
    (generateManagementTip_spec ("2026-10-12".toList) []
      (fun _ => "Ask one clarifying question before reacting.".toList)).2.1
      ⟨0, by omega, by constructor <;> decide⟩
  have hi0 : i = 0 := by
    by_contra hne
    exact hmin 0 (Nat.pos_of_ne_zero hne) ⟨by decide, by decide⟩
  subst hi0
  rw [heq]
  decide

end WingmanEM
